import Mathlib

/-!
Verification development for the `WeaviateDocumentStore` module
(`haystack/document_stores/weaviate.py`).

The Python module is shallowly embedded: Python runtime values are the
inductive `PyVal`, Python dicts are association lists (first binding wins,
insertion order preserved, as for Python's `dict`), machine integers are
`Nat` with explicit `% 2 ^ 32` where the SHA-256 id derivation needs 32-bit
arithmetic, and code that can raise returns `Except`.  The Weaviate client
is an external collaborator (spec section 6); it is modelled as a pure
key-value/schema backend, and every operation additionally returns the list
of backend calls it issued so that call-trace properties can be stated.
-/

namespace HaystackWeaviate

/-- Python runtime values as they occur in this module: strings, ints,
floats, booleans, `None`, lists and dicts (dicts as ordered association
lists). -/
inductive PyVal where
  | str (s : String)
  | int (n : Int)
  | float (q : Rat)
  | bool (b : Bool)
  | none
  | list (xs : List PyVal)
  | dict (kvs : List (String × PyVal))
deriving BEq, Repr, Inhabited


/-- Python truthiness for the values this module tests with `if x:`. -/
def pyTruthy : PyVal → Bool
  | .str s => s ≠ ""
  | .int n => n ≠ 0
  | .float q => q ≠ 0
  | .bool b => b
  | .none => false
  | .list xs => ¬ xs.isEmpty
  | .dict kvs => ¬ kvs.isEmpty

/-- Python `str()` for the values this module converts; only the `.str`
case is reached on backend-produced data (content is stored as a JSON
string, `content_type` as a string). -/
def pyStr : PyVal → String
  | .str s => s
  | .int n => toString n
  | .bool b => if b then "True" else "False"
  | .none => "None"
  | _ => ""

/-- Python `value is None` (the only value comparison the module makes on
arbitrary `PyVal`s). -/
def isNone : PyVal → Bool
  | .none => true
  | _ => false

/-- Dict lookup (`d.get(k)` / `k in d`). -/
def alookup (kvs : List (String × PyVal)) (k : String) : Option PyVal :=
  (kvs.find? (fun kv => kv.1 == k)).map (fun kv => kv.2)

/-- Dict key removal (`d.pop(k)` discarding the value). -/
def aremove (kvs : List (String × PyVal)) (k : String) : List (String × PyVal) :=
  kvs.filter (fun kv => kv.1 ≠ k)

/-- Dict update `d[k] = v`: overwrite in place if the key exists (Python
dicts keep the original insertion position), else append. -/
def aset (kvs : List (String × PyVal)) (k : String) (v : PyVal) : List (String × PyVal) :=
  if (kvs.find? (fun kv => kv.1 == k)).isSome then
    kvs.map (fun kv => if kv.1 == k then (k, v) else kv)
  else
    kvs ++ [(k, v)]

/-- Keys of a dict, in order. -/
def akeys (kvs : List (String × PyVal)) : List String := kvs.map (fun kv => kv.1)

/-! ## The UUID pattern

`UUID_PATTERN = re.compile(r"^[\da-f]{8}-([\da-f]{4}-){3}[\da-f]{12}$", re.IGNORECASE)`
(line 28).  With `IGNORECASE` the character class accepts upper- and
lower-case hex digits; `\d` is modelled as an ASCII digit. -/

/-- A character accepted by the pattern's `[\da-f]` class under
`re.IGNORECASE`. -/
def isHexChar (c : Char) : Bool :=
  c.isDigit || ('a' ≤ c && c ≤ 'f') || ('A' ≤ c && c ≤ 'F')

/-- Consume exactly `n` hex characters, returning the remaining input. -/
def hexTake : Nat → List Char → Option (List Char)
  | 0, cs => some cs
  | _ + 1, [] => Option.none
  | n + 1, c :: cs => if isHexChar c then hexTake n cs else Option.none

/-- Consume a single `-`. -/
def dashTake : List Char → Option (List Char)
  | '-' :: cs => some cs
  | _ => Option.none

/-- Acceptor for the anchored 8-4-4-4-12 grammar of `UUID_PATTERN`. -/
def uuidChars (cs : List Char) : Bool :=
  (((((((hexTake 8 cs).bind dashTake).bind (hexTake 4)).bind dashTake).bind
      (hexTake 4)).bind dashTake).bind (hexTake 4)).bind
      (fun cs => (dashTake cs).bind (hexTake 12)) == some []

/-- `UUID_PATTERN.match id` as a boolean. -/
def uuidMatch (s : String) : Bool := uuidChars s.data

/-! ## SHA-256 (the `hashlib.sha256` collaborator)

`_sanitize_id` derives replacement ids from
`hashlib.sha256((id + index).encode("utf-8")).hexdigest()` (lines 331-332).
`hashlib` is the Python standard library; it is embedded here as a full
executable FIPS 180-4 SHA-256 over byte lists (`Nat` values `< 256`,
32-bit words as `Nat` reduced `% 2 ^ 32`). -/

/-- UTF-8 encoding of one character (the `str.encode("utf-8")` collaborator). -/
def utf8Char (c : Char) : List Nat :=
  let n := c.toNat
  if n < 128 then [n]
  else if n < 2048 then [192 + n / 64, 128 + n % 64]
  else if n < 65536 then [224 + n / 4096, 128 + n / 64 % 64, 128 + n % 64]
  else [240 + n / 262144, 128 + n / 4096 % 64, 128 + n / 64 % 64, 128 + n % 64]

/-- UTF-8 bytes of a string. -/
def strBytes (s : String) : List Nat := s.data.flatMap utf8Char

/-- Truncate to 32 bits. -/
def w32 (n : Nat) : Nat := n % 4294967296

/-- 32-bit addition. -/
def add32 (a b : Nat) : Nat := (a + b) % 4294967296

/-- 32-bit right rotation (arguments assumed `< 2 ^ 32`). -/
def rotr32 (k n : Nat) : Nat := n / 2 ^ k + n % 2 ^ k * 2 ^ (32 - k)

/-- 32-bit right shift. -/
def shr32 (k n : Nat) : Nat := n / 2 ^ k

/-- 32-bit complement. -/
def not32 (n : Nat) : Nat := Nat.xor n 4294967295

/-- SHA-256 `σ0`. -/
def ssig0 (x : Nat) : Nat := Nat.xor (Nat.xor (rotr32 7 x) (rotr32 18 x)) (shr32 3 x)

/-- SHA-256 `σ1`. -/
def ssig1 (x : Nat) : Nat := Nat.xor (Nat.xor (rotr32 17 x) (rotr32 19 x)) (shr32 10 x)

/-- SHA-256 `Σ0`. -/
def bsig0 (x : Nat) : Nat := Nat.xor (Nat.xor (rotr32 2 x) (rotr32 13 x)) (rotr32 22 x)

/-- SHA-256 `Σ1`. -/
def bsig1 (x : Nat) : Nat := Nat.xor (Nat.xor (rotr32 6 x) (rotr32 11 x)) (rotr32 25 x)

/-- SHA-256 `Ch`. -/
def chW (e f g : Nat) : Nat := Nat.xor (Nat.land e f) (Nat.land (not32 e) g)

/-- SHA-256 `Maj`. -/
def majW (a b c : Nat) : Nat := Nat.xor (Nat.xor (Nat.land a b) (Nat.land a c)) (Nat.land b c)

/-- SHA-256 round constants (FIPS 180-4, in decimal). -/
def sha256K : List Nat :=
  [1116352408, 1899447441, 3049323471, 3921009573, 961987163, 1508970993,
   2453635748, 2870763221, 3624381080, 310598401, 607225278, 1426881987,
   1925078388, 2162078206, 2614888103, 3248222580, 3835390401, 4022224774,
   264347078, 604807628, 770255983, 1249150122, 1555081692, 1996064986,
   2554220882, 2821834349, 2952996808, 3210313671, 3336571891, 3584528711,
   113926993, 338241895, 666307205, 773529912, 1294757372, 1396182291,
   1695183700, 1986661051, 2177026350, 2456956037, 2730485921, 2820302411,
   3259730800, 3345764771, 3516065817, 3600352804, 4094571909, 275423344,
   430227734, 506948616, 659060556, 883997877, 958139571, 1322822218,
   1537002063, 1747873779, 1955562222, 2024104815, 2227730452, 2361852424,
   2428436474, 2756734187, 3204031479, 3329325298]

/-- Working state of one compression round. -/
structure RoundState where
  a : Nat
  b : Nat
  c : Nat
  d : Nat
  e : Nat
  f : Nat
  g : Nat
  h : Nat
deriving Repr

/-- One SHA-256 round with constant `k` and schedule word `w`. -/
def roundStep (st : RoundState) (kw : Nat × Nat) : RoundState :=
  let t1 := add32 st.h (add32 (bsig1 st.e) (add32 (chW st.e st.f st.g) (add32 kw.1 kw.2)))
  let t2 := add32 (bsig0 st.a) (majW st.a st.b st.c)
  ⟨add32 t1 t2, st.a, st.b, st.c, add32 st.d t1, st.e, st.f, st.g⟩

/-- Big-endian 4-byte groups to 32-bit words. -/
def bytesToWords : List Nat → List Nat
  | b0 :: b1 :: b2 :: b3 :: rest => (((b0 * 256 + b1) * 256 + b2) * 256 + b3) :: bytesToWords rest
  | _ => []

/-- Next message-schedule word from the previous ones. -/
def scheduleStep (ws : List Nat) : Nat :=
  let n := ws.length
  add32 (add32 (ssig1 (ws.getD (n - 2) 0)) (ws.getD (n - 7) 0))
    (add32 (ssig0 (ws.getD (n - 15) 0)) (ws.getD (n - 16) 0))

/-- Extend the 16 block words by `k` further schedule words. -/
def extendSchedule : Nat → List Nat → List Nat
  | 0, ws => ws
  | k + 1, ws => extendSchedule k (ws ++ [scheduleStep ws])

/-- Intermediate hash value. -/
structure Hash8 where
  h0 : Nat
  h1 : Nat
  h2 : Nat
  h3 : Nat
  h4 : Nat
  h5 : Nat
  h6 : Nat
  h7 : Nat
deriving Repr

/-- SHA-256 initial hash value. -/
def sha256Init : Hash8 :=
  ⟨0x6a09e667, 0xbb67ae85, 0x3c6ef372, 0xa54ff53a, 0x510e527f, 0x9b05688c, 0x1f83d9ab, 0x5be0cd19⟩

/-- Compress one 64-byte block into the hash state. -/
def compressBlock (hs : Hash8) (block : List Nat) : Hash8 :=
  let ws := extendSchedule 48 (bytesToWords block)
  let st := (sha256K.zip ws).foldl roundStep ⟨hs.h0, hs.h1, hs.h2, hs.h3, hs.h4, hs.h5, hs.h6, hs.h7⟩
  ⟨add32 hs.h0 st.a, add32 hs.h1 st.b, add32 hs.h2 st.c, add32 hs.h3 st.d,
   add32 hs.h4 st.e, add32 hs.h5 st.f, add32 hs.h6 st.g, add32 hs.h7 st.h⟩

/-- Big-endian 8-byte encoding of the message bit length. -/
def lenBytes8 (n : Nat) : List Nat :=
  [n / 2 ^ 56 % 256, n / 2 ^ 48 % 256, n / 2 ^ 40 % 256, n / 2 ^ 32 % 256,
   n / 2 ^ 24 % 256, n / 2 ^ 16 % 256, n / 2 ^ 8 % 256, n % 256]

/-- SHA-256 padding: `0x80`, zeros to 56 mod 64, 8-byte bit length. -/
def sha256Pad (msg : List Nat) : List Nat :=
  let zeros := (64 - (msg.length + 9) % 64) % 64
  msg ++ 128 :: (List.replicate zeros 0 ++ lenBytes8 (msg.length * 8))

/-- Accumulating splitter: `acc` holds the current block in reverse. -/
def chunk64Go (acc : List Nat) : List Nat → List (List Nat)
  | [] => if acc.isEmpty then [] else [acc.reverse]
  | b :: bs =>
    if acc.length = 63 then (b :: acc).reverse :: chunk64Go [] bs
    else chunk64Go (b :: acc) bs

/-- Split into 64-byte blocks (padded input length is a multiple of 64). -/
def chunk64 (l : List Nat) : List (List Nat) := chunk64Go [] l

/-- Big-endian 4-byte encoding of one 32-bit word. -/
def wordBytes (w : Nat) : List Nat := [w / 2 ^ 24 % 256, w / 2 ^ 16 % 256, w / 2 ^ 8 % 256, w % 256]

/-- The 32 digest bytes of SHA-256 of a byte message. -/
def sha256Bytes (msg : List Nat) : List Nat :=
  let hs := (chunk64 (sha256Pad msg)).foldl compressBlock sha256Init
  wordBytes hs.h0 ++ wordBytes hs.h1 ++ wordBytes hs.h2 ++ wordBytes hs.h3 ++
    wordBytes hs.h4 ++ wordBytes hs.h5 ++ wordBytes hs.h6 ++ wordBytes hs.h7

/-- Lower-case hex digit of `n % 16`. -/
def hexChar (n : Nat) : Char := if n < 10 then Char.ofNat (48 + n) else Char.ofNat (87 + n)

/-- Two lower-case hex characters of one byte. -/
def byteHexChars (b : Nat) : List Char := [hexChar (b / 16 % 16), hexChar (b % 16)]

/-- `hexdigest()` of a digest, as characters. -/
def hexdigestChars (bs : List Nat) : List Char := bs.flatMap byteHexChars

/-- Python slicing `[::2]`: every second element starting at index 0. -/
def everySecond : List α → List α
  | [] => []
  | [a] => [a]
  | a :: _ :: rest => a :: everySecond rest

/-- `str(uuid.UUID(h))` layout for 32 hex digits `h`: hyphens after
positions 8, 12, 16 and 20 (the digits are already lower case here). -/
def insertHyphens (ds : List Char) : List Char :=
  ds.take 8 ++ '-' :: ((ds.drop 8).take 4 ++ '-' ::
    ((ds.drop 12).take 4 ++ '-' :: ((ds.drop 16).take 4 ++ '-' :: ds.drop 20)))

/-- The uuid generated for a non-conforming id (lines 331-332):
`str(uuid.UUID(hashlib.sha256((id + index).encode("utf-8")).hexdigest()[::2]))`. -/
def generatedUuid (id index : String) : String :=
  String.mk (insertHyphens (everySecond (hexdigestChars (sha256Bytes (strBytes (id ++ index))))))


/-! ## Store configuration, errors, and the backend collaborator -/

/-- Errors raised by the modelled code paths. -/
inductive WErr where
  | notImplemented
  | assertionError
  | keyError (k : String)
  | indexError
  | valueError
  | duplicateDocumentError
deriving BEq, Repr, DecidableEq

/-- A property definition in a Weaviate class schema. -/
structure BProp where
  name : String
  dataType : List String
deriving BEq, Repr, DecidableEq

/-- A class (index) in the Weaviate schema. -/
structure BClass where
  name : String
  props : List BProp
deriving BEq, Repr

/-- A stored Weaviate object: class, uuid, flat properties, vector. -/
structure BObject where
  className : String
  id : String
  props : List (String × PyVal)
  vector : PyVal
deriving BEq, Repr

/-- The backend state held by the Weaviate collaborator (spec section 6):
a schema (list of classes) and the stored objects, keyed by uuid. -/
structure Backend where
  classes : List BClass := []
  objects : List BObject := []
deriving BEq, Repr

/-- One call issued to the Weaviate client, recorded for trace properties. -/
inductive BCall where
  | schemaGet
  | schemaCreate (classNames : List String)
  | propertyCreate (className : String) (prop : BProp)
  | deleteClass (className : String)
  | getById (id : String)
  | batchCreate (entries : List BObject)
  | dataDelete (id : String)
  | dataUpdate (className : String) (id : String)
  | aggregate (className : String) (withWhere : Bool)
  | queryGet (className : String) (withWhere : Bool) (limit : Option Nat)
  | queryRaw (q : String)
deriving BEq, Repr

/-- Store configuration (constructor state; `index` is the constructor's
already-sanitized `self.index`). -/
structure Config where
  index : String := "Document"
  contentField : String := "content"
  nameField : String := "name"
  embeddingField : String := "embedding"
  returnEmbedding : Bool := false
  duplicateDocuments : String := "overwrite"
  customSchema : Option (List BClass) := Option.none

/-- External pure collaborators consumed by the module (spec sections 1
and 6): `convert_date_to_rfc3339` (repo code outside `src/`; per the spec a
date-conversion function failing with a format error on unparseable input,
here `Option.none`), `json.dumps`/`json.loads` (Python stdlib; `jsonLoads`
is total here because deserialization failures — spec's data-integrity
errors — are outside the modelled claims), `normalize_embedding`
(`BaseDocumentStore`, repo code outside `src/`; per spec section 4.4 an
in-place L2 normalization of the vector), and one fixed draw of
`np.random.rand(embedding_dim)` for the dummy-embedding fallback. -/
structure Collab where
  toRFC3339 : PyVal → Option PyVal
  jsonDumps : PyVal → String
  jsonLoads : String → PyVal
  normalizeEmbedding : PyVal → PyVal
  dummyVec : PyVal

/-- Whether `convert_date_to_rfc3339` accepts a string (no `ValueError`). -/
def dateOkOf (co : Collab) : String → Bool := fun s => (co.toRFC3339 (.str s)).isSome

/-! ## Index-name sanitization (`_sanitize_index_name`, lines 176-182) -/

/-- Python `str.split(sep)` on characters. -/
def splitOnChar (sep : Char) : List Char → List (List Char)
  | [] => [[]]
  | c :: cs =>
    if c = sep then [] :: splitOnChar sep cs
    else
      match splitOnChar sep cs with
      | [] => [[c]]
      | p :: ps => (c :: p) :: ps

/-- Python `str.capitalize()`: first character upper-cased, the rest
lower-cased (ASCII, as for Lean's `Char.toUpper`/`Char.toLower`). -/
def pyCapitalize : List Char → List Char
  | [] => []
  | c :: cs => c.toUpper :: cs.map Char.toLower

/-- `_sanitize_index_name`: `None` passes through; a name containing `_`
becomes the concatenation of its capitalized `_`-separated parts; any other
name gets its first character upper-cased.  The source raises `IndexError`
on the empty string (it reads `index[0]`); that unreachable case is
modelled as `""`. -/
def sanitizeIndexName : Option String → Option String
  | Option.none => Option.none
  | some index =>
    if index.data.contains '_' then
      some (String.mk ((splitOnChar '_' index.data).map pyCapitalize).flatten)
    else
      match index.data with
      | [] => some ""
      | c :: cs => some (String.mk (c.toUpper :: cs))

/-- The `self._sanitize_index_name(index) or self.index` idiom used at the
top of every operation (`or` falls through on `None` and on the falsy empty
string). -/
def resolveIndex (cfg : Config) (index : Option String) : String :=
  match sanitizeIndexName index with
  | Option.none => cfg.index
  | some s => if s = "" then cfg.index else s

/-! ## Identifier sanitization (`_sanitize_id`, lines 324-339) -/

/-- `_sanitize_id`: ids matching `UUID_PATTERN` pass through unchanged, any
other id is replaced by the uuid derived from
`sha256((id + index).encode("utf-8"))`.  The index argument is resolved
against the store default first, exactly as in the source; the one-time
warning side effect carries no data and is not modelled. -/
def sanitizeId (cfg : Config) (id : String) (index : Option String) : String :=
  let idx := resolveIndex cfg index
  if uuidMatch id then id else generatedUuid id idx

/-! ## Backend collaborator semantics (spec section 6) -/

/-- Find a class by name. -/
def bFindClass (b : Backend) (name : String) : Option BClass :=
  b.classes.find? (fun c => c.name == name)

/-- `data_object.get_by_id(id, with_vector=True)`: Weaviate object lookup
is by uuid alone (no index argument in this client). -/
def bGetById (b : Backend) (id : String) : Option BObject :=
  b.objects.find? (fun o => o.id == id)

/-- Result dict of a `get_by_id` response, as in the sample of lines
280-286: fields nested under `properties`, vector at the root. -/
def objResult (o : BObject) : List (String × PyVal) :=
  [("class", .str o.className), ("id", .str o.id),
   ("properties", .dict o.props), ("vector", o.vector)]

/-- Result dict of one object in a GraphQL `Get` response: requested
properties at the root plus the `_additional \x7bid, certainty, vector\x7d`
side channel (certainty is null for non-vector queries). -/
def queryResult (o : BObject) : List (String × PyVal) :=
  o.props ++ [("_additional",
    .dict [("id", .str o.id), ("certainty", PyVal.none), ("vector", o.vector)])]

/-- Upsert one object by uuid (Weaviate batch writes overwrite by id). -/
def bUpsert (b : Backend) (o : BObject) : Backend :=
  if (bGetById b o.id).isSome then
    { b with objects := b.objects.map (fun x => if x.id == o.id then o else x) }
  else
    { b with objects := b.objects ++ [o] }

/-- `batch.create`: upsert every entry. -/
def bBatchCreate (b : Backend) (os : List BObject) : Backend :=
  os.foldl bUpsert b

/-- `data_object.delete(id)`. -/
def bDeleteObj (b : Backend) (id : String) : Backend :=
  { b with objects := b.objects.filter (fun o => o.id ≠ id) }

/-- `schema.delete_class(index)`: drop the class and its objects. -/
def bDeleteClass (b : Backend) (name : String) : Backend :=
  { classes := b.classes.filter (fun c => c.name ≠ name),
    objects := b.objects.filter (fun o => o.className ≠ name) }

/-- `schema.property.create(index, property_dict)`. -/
def bAddProp (b : Backend) (className : String) (p : BProp) : Backend :=
  { b with
    classes := b.classes.map (fun c =>
      if c.name == className then { c with props := c.props ++ [p] } else c) }

/-- Aggregate count of a class, optionally filtered. -/
def bCount (b : Backend) (idx : String) (pred : Option (BObject → Bool)) : Nat :=
  (b.objects.filter (fun o => o.className == idx && (pred.map (fun p => p o)).getD true)).length

/-- GraphQL `Get` on a class with optional where-filter and limit. -/
def bQueryGet (b : Backend) (idx : String) (pred : Option (BObject → Bool))
    (limit : Option Nat) : List (List (String × PyVal)) :=
  let xs := b.objects.filter (fun o => o.className == idx && (pred.map (fun p => p o)).getD true)
  ((limit.map xs.take).getD xs).map queryResult

/-- `data_object.update(meta, class_name, uuid)`: merge fields into the
object with the given uuid. -/
def bDataUpdate (b : Backend) (_className id : String)
    (newProps : List (String × PyVal)) : Backend :=
  { b with objects := b.objects.map (fun o =>
      if o.id == id then
        { o with props := newProps.foldl (fun acc kv => aset acc kv.1 kv.2) o.props }
      else o) }

/-! ## Schema registry helpers (lines 341-412) -/

/-- Body of `_get_current_properties` for an already-resolved class name:
the source loops over all classes and keeps the property names of the last
matching one (lines 346-351). -/
def currentProperties (b : Backend) (idx : String) : List String :=
  b.classes.foldl (fun acc c => if c.name == idx then c.props.map (fun p => p.name) else acc) []

/-- `_get_current_properties(index)`: resolves the index name internally. -/
def getCurrentProperties (cfg : Config) (b : Backend) (index : Option String) : List String :=
  currentProperties b (resolveIndex cfg index)

/-- Body of `_get_date_properties`: property names whose first `dataType`
entry is `"date"` (lines 359-363; note a `date[]` list property does not
match). -/
def dateProperties (b : Backend) (idx : String) : List String :=
  b.classes.foldl (fun acc c =>
    if c.name == idx then
      (c.props.filter (fun p => p.dataType.headD "" == "date")).map (fun p => p.name)
    else acc) []

/-- `_get_date_properties(index)`: resolves the index name internally. -/
def getDateProperties (cfg : Config) (b : Backend) (index : Option String) : List String :=
  dateProperties b (resolveIndex cfg index)

/-- Scalar branch chain of `_get_weaviate_type_of_value` (lines 388-401):
`isinstance(value, str)` (date-parseable strings are `date`, other strings
`string`), then `isinstance(value, int)`.  CPython's `bool` is a subclass
of `int`, so booleans satisfy the `int` check and the final
`isinstance(value, bool)` branch is unreachable; values matching no branch
leave `data_type` as the empty string. -/
def weaviateScalarType (dateOk : String → Bool) : PyVal → String
  | .str s => if dateOk s then "date" else "string"
  | .int _ => "int"
  | .bool _ => "int"
  | .float _ => "number"
  | _ => ""

/-- `_get_weaviate_type_of_value` (lines 377-406): a list is unwrapped to
its first element (`value[0]` raises `IndexError` on an empty list, the
`Option.none` case) and the inferred type is suffixed with `[]`. -/
def getWeaviateTypeOfValue (dateOk : String → Bool) : PyVal → Option String
  | .list [] => Option.none
  | .list (x :: _) => some (weaviateScalarType dateOk x ++ "[]")
  | v => some (weaviateScalarType dateOk v)

/-- `_update_schema(new_prop, property_value, index)` (lines 365-375):
resolves the index, infers the data type and issues a property-create
call. -/
def updateSchema (cfg : Config) (dateOk : String → Bool) (b : Backend) (newProp : String)
    (value : PyVal) (index : Option String) : Except WErr (Backend × BCall) :=
  let idx := resolveIndex cfg index
  match getWeaviateTypeOfValue dateOk value with
  | Option.none => .error .indexError
  | some dt =>
    let p : BProp := ⟨newProp, [dt]⟩
    .ok (bAddProp b idx p, .propertyCreate idx p)

/-- `_check_document(cur_props, doc)` (lines 408-412): document keys absent
from the schema snapshot, in document order. -/
def checkDocument (curProps : List String) (doc : List (String × PyVal)) : List String :=
  (akeys doc).filter (fun k => !curProps.contains k)

/-- `_create_schema_and_index_if_not_exist` (lines 184-216): resolve the
index, take the custom schema or the default one (a `string` name field
and a `text` content field), and create it unless the backend already
contains it.  `schema.contains` is a schema fetch; creation of an already
partially-present schema is modelled as creating only the missing
classes. -/
def createSchemaAndIndexIfNotExist (cfg : Config) (b : Backend) (index : Option String) :
    Backend × List BCall :=
  let idx := resolveIndex cfg index
  let schema : List BClass :=
    match cfg.customSchema with
    | some s => s
    | Option.none => [⟨idx, [⟨cfg.nameField, ["string"]⟩, ⟨cfg.contentField, ["text"]⟩]⟩]
  if schema.all (fun c => (bFindClass b c.name).isSome) then (b, [.schemaGet])
  else
    ({ b with classes := b.classes ++ schema.filter (fun c => (bFindClass b c.name).isNone) },
     [.schemaGet, .schemaCreate (schema.map (fun c => c.name))])

/-! ## Document codec (`_convert_weaviate_result_to_document`, lines 218-270) -/

/-- The Document record produced by the codec.  `Document.from_dict` lives
in `haystack/schema.py` (repo code outside `src/`); modelled from the spec
(section 3) as plain field assignment, with `id` the string id delivered by
the backend (all modelled flows deliver string ids; anything else collapses
to `""`).  `score` and `embedding` hold the Python locals' values, with
`PyVal.none` standing for Python `None`. -/
structure HDoc where
  id : String
  content : PyVal
  contentType : Option String
  meta : List (String × PyVal)
  score : PyVal
  embedding : PyVal
deriving BEq, Repr

/-- String content of a `PyVal` id (ids in backend results are strings). -/
def asStrD (v : PyVal) : String :=
  match v with
  | .str s => s
  | _ => ""

/-- Lines 232-234: `props = result.get("properties"); if not props:
props = result`.  Only a non-empty dict is truthy; a truthy non-dict
`properties` value would make the source raise on the following attribute
access and never occurs in backend responses. -/
def selectProps (result : List (String × PyVal)) : List (String × PyVal) :=
  match alookup result "properties" with
  | some (.dict kvs) => if kvs.isEmpty then result else kvs
  | _ => result

/-- Lines 240-242: `if props.get("content_type") is not None:
content_type = str(props.pop("content_type"))` — the pop happens only for a
non-`None` value, so a `None`-valued `content_type` entry stays in the
props (and hence in the meta). -/
def popContentType (props : List (String × PyVal)) : Option String × List (String × PyVal) :=
  match alookup props "content_type" with
  | some v => if isNone v then (Option.none, props) else (some (pyStr v), aremove props "content_type")
  | Option.none => (Option.none, props)

/-- Lines 244-252: when `_additional` holds a dict, its `certainty`
becomes the score, its `id` and `vector` entries override the root values,
and the key is popped.  A non-dict `_additional` value would make the
source perform stringly membership tests or raise; such values never occur
in backend responses and are modelled as absent. -/
def addOverride (props : List (String × PyVal)) (id0 emb0 : PyVal) :
    PyVal × PyVal × PyVal × List (String × PyVal) :=
  match alookup props "_additional" with
  | some (.dict add) =>
    ((alookup add "certainty").getD .none, (alookup add "id").getD id0,
     (alookup add "vector").getD emb0, aremove props "_additional")
  | _ => (.none, id0, emb0, props)

/-- `_convert_weaviate_result_to_document(result, return_embedding)`:
id and vector are first read from the result root, fields from `properties`
when that is non-empty and from the root otherwise; a present
`_additional` dict overrides id and vector and supplies `certainty` as the
score before being popped; everything except the content and embedding
fields becomes `meta`.  The `return_embedding`-guarded `np.asarray` call
only changes the array representation, not the value, so the flag has no
observable effect here. -/
def convertResult (cfg : Config) (jsonLoads : String → PyVal)
    (result : List (String × PyVal)) (_returnEmbedding : Bool) : HDoc :=
  let id0 := (alookup result "id").getD .none
  let emb0 := (alookup result "vector").getD .none
  let props := selectProps result
  let content : PyVal :=
    match alookup props cfg.contentField with
    | some v => if isNone v then .str "" else jsonLoads (pyStr v)
    | Option.none => .str ""
  let ct := popContentType props
  let ov := addOverride ct.2 id0 emb0
  let meta := ov.2.2.2.filter (fun kv => kv.1 != cfg.contentField && kv.1 != cfg.embeddingField)
  { id := asStrD ov.2.1, content := content, contentType := ct.1,
    meta := meta, score := ov.1, embedding := ov.2.2.1 }

/-! ## Query facade operations -/

/-- `get_document_by_id(id, index, headers)` (lines 275-298): sanitize the
id against the resolved index and fetch by uuid (the client lookup takes no
index). -/
def getDocumentById (cfg : Config) (co : Collab) (b : Backend) (id : String)
    (index : Option String) (headers : Option PyVal) :
    Except WErr (Option HDoc) × Backend × List BCall :=
  if headers.isSome then (.error .notImplemented, b, [])
  else
    let idx := resolveIndex cfg index
    let sid := sanitizeId cfg id (some idx)
    match bGetById b sid with
    | some o => (.ok (some (convertResult cfg co.jsonLoads (objResult o) true)), b, [.getById sid])
    | Option.none => (.ok Option.none, b, [.getById sid])

/-- Loop body of `get_documents_by_id`: one sequential fetch per id, found
documents appended in input order, absent ids skipped. -/
def getDocumentsByIdGo (cfg : Config) (co : Collab) (b : Backend) (idx : String) :
    List String → List HDoc × List BCall
  | [] => ([], [])
  | i :: is =>
    let sid := sanitizeId cfg i (some idx)
    let (docs, tr) := getDocumentsByIdGo cfg co b idx is
    match bGetById b sid with
    | some o => (convertResult cfg co.jsonLoads (objResult o) true :: docs, .getById sid :: tr)
    | Option.none => (docs, .getById sid :: tr)

/-- `get_documents_by_id(ids, index, batch_size, headers)` (lines 300-322). -/
def getDocumentsById (cfg : Config) (co : Collab) (b : Backend) (ids : List String)
    (index : Option String) (headers : Option PyVal) :
    Except WErr (List HDoc) × Backend × List BCall :=
  if headers.isSome then (.error .notImplemented, b, [])
  else
    let idx := resolveIndex cfg index
    let (docs, tr) := getDocumentsByIdGo cfg co b idx ids
    (.ok docs, b, tr)

/-- `get_document_count(filters, index, only_documents_without_embedding,
headers)` (lines 573-603).  Filters are an opaque type `F`; their Weaviate
compilation (`LogicalFilterClause`, repo code outside `src/`) together with
the backend's evaluation of the compiled filter is the collaborator
`evalF`; a `some` filter models a truthy (non-empty) filter dict. -/
def getDocumentCount {F : Type} (cfg : Config) (evalF : F → BObject → Bool) (b : Backend)
    (filters : Option F) (index : Option String) (onlyDocumentsWithoutEmbedding : Bool)
    (headers : Option PyVal) : Except WErr Nat × Backend × List BCall :=
  if headers.isSome then (.error .notImplemented, b, [])
  else if onlyDocumentsWithoutEmbedding then (.ok 0, b, [])
  else
    let idx := resolveIndex cfg index
    match filters with
    | some f => (.ok (bCount b idx (some (evalF f))), b, [.aggregate idx true])
    | Option.none => (.ok (bCount b idx Option.none), b, [.aggregate idx false])

/-- `_get_all_documents_in_index` (lines 657-686): fetch the property list
(one schema read), query the class with the optional compiled filter, and
yield the raw result dicts. -/
def getAllDocumentsInIndex {F : Type} (cfg : Config) (evalF : F → BObject → Bool) (b : Backend)
    (index : Option String) (filters : Option F) :
    List (List (String × PyVal)) × List BCall :=
  let idx := resolveIndex cfg index
  (bQueryGet b idx (filters.map evalF) Option.none,
   [.schemaGet, .queryGet idx filters.isSome Option.none])

/-- `get_all_documents` via `get_all_documents_generator` (lines 605-743):
decode every raw result, defaulting `return_embedding` to the store
flag. -/
def getAllDocuments {F : Type} (cfg : Config) (co : Collab) (evalF : F → BObject → Bool)
    (b : Backend) (index : Option String) (filters : Option F)
    (returnEmbedding : Option Bool) (headers : Option PyVal) :
    Except WErr (List HDoc) × Backend × List BCall :=
  if headers.isSome then (.error .notImplemented, b, [])
  else
    let idx := resolveIndex cfg index
    let re := returnEmbedding.getD cfg.returnEmbedding
    let (results, tr) := getAllDocumentsInIndex cfg evalF b (some idx) filters
    (.ok (results.map (fun r => convertResult cfg co.jsonLoads r re)), b, tr)

/-- `query(query, filters, top_k, custom_query, index)` (lines 745-859):
the property list is fetched first; a truthy custom query goes through the
raw passthrough (`rawResults` models the extracted per-index list of the
backend's response to `query.raw`), a truthy filter through a filtered
`Get` with limit `top_k`, and a text-only query raises
`NotImplementedError`. -/
def query {F : Type} (cfg : Config) (co : Collab) (evalF : F → BObject → Bool)
    (rawResults : String → List (List (String × PyVal))) (b : Backend)
    (_q : Option String) (filters : Option F) (topK : Nat) (customQuery : Option String)
    (index : Option String) : Except WErr (List HDoc) × Backend × List BCall :=
  let idx := resolveIndex cfg index
  let convert := fun (r : List (String × PyVal)) => convertResult cfg co.jsonLoads r true
  if (customQuery.getD "") ≠ "" then
    ((.ok ((rawResults ((customQuery.getD ""))).map convert)), b,
     [.schemaGet, .queryRaw (customQuery.getD "")])
  else
    match filters with
    | some f =>
      (.ok ((bQueryGet b idx (some (evalF f)) (some topK)).map convert), b,
       [.schemaGet, .queryGet idx true (some topK)])
    | Option.none => (.error .notImplemented, b, [.schemaGet])

/-! ## Write pipeline (`write_documents`, lines 414-537) -/

/-- A `haystack.schema.Document` on the write side (repo code outside
`src/`; modelled from the spec, section 3): caller id, content payload,
content type, open `meta` mapping, optional score and embedding
(`PyVal.none` = absent). -/
structure WDoc where
  id : String
  content : PyVal := .str ""
  contentType : PyVal := .str "text"
  meta : List (String × PyVal) := []
  score : PyVal := .none
  embedding : PyVal := .none
deriving BEq, Repr

/-- Modelled from the spec: `Document.to_dict(field_map)` (repo code
outside `src/`) — the flat field dict of the document, with content and
embedding keyed by the configured field names.  With the default
configuration the renaming is the identity. -/
def toDict (cfg : Config) (d : WDoc) : List (String × PyVal) :=
  aset (aset (aset (aset (aset (aset [] "id" (.str d.id)) cfg.contentField d.content)
    "content_type" d.contentType) "meta" (.dict d.meta)) "score" d.score)
    cfg.embeddingField d.embedding

/-- Modelled from the spec: `BaseDocumentStore._handle_duplicate_documents`
(repo code outside `src/`).  Spec section 4.5: `skip` drops documents whose
id already exists in the store, `overwrite` always includes, `fail` aborts
the whole write with a duplication error if any id pre-exists. -/
def handleDuplicateDocuments (b : Backend) (policy : String) (docs : List WDoc) :
    Except WErr (List WDoc) :=
  if policy = "skip" then .ok (docs.filter (fun d => (bGetById b d.id).isNone))
  else if policy = "fail" then
    if docs.any (fun d => (bGetById b d.id).isSome) then .error .duplicateDocumentError
    else .ok docs
  else .ok docs

/-- Lines 490-507: build the flat `_doc` sent to the batch — take the field
dict, pop `score`, unnest `meta` into top-level keys and pop it, pop the
id (as a string) and the embedding vector, JSON-serialize
`_doc["content"]` (the literal key `"content"`, as in the source).  The
two `KeyError` branches correspond to the source's unguarded subscript
accesses. -/
def flatDoc (cfg : Config) (jsonDumps : PyVal → String) (d : WDoc) :
    Except WErr (List (String × PyVal) × String × PyVal) :=
  let doc0 := toDict cfg d
  let doc1 := aremove doc0 "score"
  let doc2 := aremove (d.meta.foldl (fun acc kv => aset acc kv.1 kv.2) doc1) "meta"
  let docId := pyStr ((alookup doc2 "id").getD .none)
  let doc3 := aremove doc2 "id"
  match alookup doc3 cfg.embeddingField with
  | Option.none => .error (.keyError cfg.embeddingField)
  | some vec =>
    let doc4 := aremove doc3 cfg.embeddingField
    match alookup doc4 "content" with
    | Option.none => .error (.keyError "content")
    | some cv => .ok (aset doc4 "content" (.str (jsonDumps cv)), docId, vec)

/-- Lines 512-515: issue one `_update_schema` per missing property, in
document order, appending each migrated name to the in-call snapshot.
On an error the backend state and calls so far are kept. -/
def migrateProps (cfg : Config) (dateOk : String → Bool) (idx : String)
    (fdoc : List (String × PyVal)) :
    List String → List String → Backend → Except WErr (List String) × Backend × List BCall
  | [], cur, b => (.ok cur, b, [])
  | p :: ps, cur, b =>
    match updateSchema cfg dateOk b p ((alookup fdoc p).getD .none) (some idx) with
    | .error e => (.error e, b, [])
    | .ok (b', call) =>
      let (r, b'', tr) := migrateProps cfg dateOk idx fdoc ps (cur ++ [p]) b'
      (r, b'', call :: tr)

/-- Lines 517-520: coerce every date-typed schema property of the document
to RFC3339; the subscript `_doc[date_field]` raises `KeyError` when the
document lacks the property, and the conversion collaborator raises
`ValueError` on an unparseable value. -/
def coerceDates (toRFC : PyVal → Option PyVal) :
    List String → List (String × PyVal) → Except WErr (List (String × PyVal))
  | [], doc => .ok doc
  | f :: fs, doc =>
    match alookup doc f with
    | Option.none => .error (.keyError f)
    | some v =>
      match toRFC v with
      | Option.none => .error .valueError
      | some v' => coerceDates toRFC fs (aset doc f v')

/-- Lines 489-522, one document: flatten, normalize the vector (cosine is
the only allowed similarity), diff against the snapshot and migrate,
re-fetch the date properties (one schema read per document) and coerce
them, and produce the batch entry. -/
def processDoc (cfg : Config) (co : Collab) (idx : String) (cur : List String)
    (b : Backend) (d : WDoc) :
    Except WErr (List String × BObject) × Backend × List BCall :=
  match flatDoc cfg co.jsonDumps d with
  | .error e => (.error e, b, [])
  | .ok (fdoc, docId, vec) =>
    let vecN := co.normalizeEmbedding vec
    let missing := checkDocument cur fdoc
    match migrateProps cfg (dateOkOf co) idx fdoc missing cur b with
    | (.error e, b', tr) => (.error e, b', tr)
    | (.ok cur', b', tr) =>
      let dateFields := getDateProperties cfg b' (some idx)
      match coerceDates co.toRFC3339 dateFields fdoc with
      | .error e => (.error e, b', tr ++ [.schemaGet])
      | .ok fdoc' => (.ok (cur', ⟨idx, docId, fdoc', vecN⟩), b', tr ++ [.schemaGet])

/-- Inner loop over one batch's documents, threading the snapshot and the
backend; an exception aborts with the state reached so far. -/
def processDocsGo (cfg : Config) (co : Collab) (idx : String) :
    List WDoc → List String → Backend →
    Except WErr (List String × List BObject) × Backend × List BCall
  | [], cur, b => (.ok (cur, []), b, [])
  | d :: ds, cur, b =>
    match processDoc cfg co idx cur b d with
    | (.error e, b', tr) => (.error e, b', tr)
    | (.ok (cur', entry), b', tr) =>
      match processDocsGo cfg co idx ds cur' b' with
      | (.error e, b'', tr') => (.error e, b'', tr ++ tr')
      | (.ok (cur'', entries), b'', tr') => (.ok (cur'', entry :: entries), b'', tr ++ tr')

/-- Outer loop over batches: each completed batch is flushed with one
`batch.create` (per-object errors in the response are only logged, so the
flush always upserts); the snapshot persists across batches. -/
def processBatchesGo (cfg : Config) (co : Collab) (idx : String) :
    List (List WDoc) → List String → Backend → Except WErr Unit × Backend × List BCall
  | [], _, b => (.ok (), b, [])
  | batch :: rest, cur, b =>
    match processDocsGo cfg co idx batch cur b with
    | (.error e, b', tr) => (.error e, b', tr)
    | (.ok (cur', entries), b', tr) =>
      let b'' := bBatchCreate b' entries
      let (r, b3, tr') := processBatchesGo cfg co idx rest cur' b''
      (r, b3, tr ++ [.batchCreate entries] ++ tr')

/-- Modelled from the spec: `get_batches_from_generator` (repo code outside
`src/`; spec section 4.5, batches flushed at a configurable size).
`acc` holds the current batch in reverse. -/
def chunksOfGo {α : Type} (n : Nat) (acc : List α) : List α → List (List α)
  | [] => if acc.isEmpty then [] else [acc.reverse]
  | x :: xs =>
    if acc.length + 1 = n then (x :: acc).reverse :: chunksOfGo n [] xs
    else chunksOfGo n (x :: acc) xs

/-- Lines 458-483: sanitize every document id against the resolved index,
apply the duplicate policy, and substitute the dummy embedding for
documents without one. -/
def prepareDocs (cfg : Config) (co : Collab) (b : Backend) (idx : String) (dup : String)
    (documents : List WDoc) : Except WErr (List WDoc) :=
  let docObjs := documents.map (fun d => { d with id := sanitizeId cfg d.id (some idx) })
  (handleDuplicateDocuments b dup docObjs).map (fun ds =>
    ds.map (fun d => if isNone d.embedding then { d with embedding := co.dummyVec } else d))

/-- `write_documents(documents, index, batch_size, duplicate_documents,
headers)` (lines 414-537): headers are unsupported; the index is resolved
and its schema ensured; the duplicate policy must be one of the three
recognized options; an empty input is a warning no-op; the schema property
list is fetched once as the in-call snapshot; ids are sanitized; the
duplicate policy is applied; absent embeddings get the dummy vector; then
the documents are processed in batches. -/
def writeDocuments (cfg : Config) (co : Collab) (b : Backend) (documents : List WDoc)
    (index : Option String) (batchSize : Nat) (duplicateDocuments : Option String)
    (headers : Option PyVal) : Except WErr Unit × Backend × List BCall :=
  if headers.isSome then (.error .notImplemented, b, [])
  else
    let idx := resolveIndex cfg index
    let sc := createSchemaAndIndexIfNotExist cfg b (some idx)
    let dup := duplicateDocuments.getD cfg.duplicateDocuments
    if ¬ (dup = "skip" ∨ dup = "overwrite" ∨ dup = "fail") then (.error .assertionError, sc.1, sc.2)
    else if documents.isEmpty then (.ok (), sc.1, sc.2)
    else
      let cur := getCurrentProperties cfg sc.1 (some idx)
      match prepareDocs cfg co sc.1 idx dup documents with
      | .error e => (.error e, sc.1, sc.2 ++ [.schemaGet])
      | .ok docs =>
        let pr := processBatchesGo cfg co idx (chunksOfGo batchSize [] docs) cur sc.1
        (pr.1, pr.2.1, sc.2 ++ [.schemaGet] ++ pr.2.2)

/-! ## Metadata update and deletion -/

/-- Line 556-560 for `update_document_meta`: a date-typed field present in
the meta dict is coerced only when its value is a string
(`isinstance(meta[date_field], str)`); the subscript still raises
`KeyError` for a date property missing from the meta dict. -/
def coerceMetaDates (toRFC : PyVal → Option PyVal) :
    List String → List (String × PyVal) → Except WErr (List (String × PyVal))
  | [], m => .ok m
  | f :: fs, m =>
    match alookup m f with
    | Option.none => .error (.keyError f)
    | some (.str s) =>
      match toRFC (.str s) with
      | Option.none => .error .valueError
      | some v' => coerceMetaDates toRFC fs (aset m f v')
    | some _ => coerceMetaDates toRFC fs m

/-- `update_document_meta(id, meta, index)` (lines 539-562): the index
argument is only defaulted (`if not index: index = self.index`), never
sanitized; the schema reads and migrations sanitize internally, but the
final `data_object.update` call and the uuid go out with the caller's raw
values. -/
def updateDocumentMeta (cfg : Config) (co : Collab) (b : Backend) (id : String)
    (meta : List (String × PyVal)) (index : Option String) :
    Except WErr Unit × Backend × List BCall :=
  let idxRaw :=
    match index with
    | Option.none => cfg.index
    | some s => if s = "" then cfg.index else s
  let cur := getCurrentProperties cfg b (some idxRaw)
  let missing := checkDocument cur meta
  match migrateProps cfg (dateOkOf co) idxRaw meta missing cur b with
  | (.error e, b', tr) => (.error e, b', .schemaGet :: tr)
  | (.ok _, b', tr) =>
    let dateFields := getDateProperties cfg b' (some idxRaw)
    match coerceMetaDates co.toRFC3339 dateFields meta with
    | .error e => (.error e, b', .schemaGet :: (tr ++ [.schemaGet]))
    | .ok meta' =>
      (.ok (), bDataUpdate b' idxRaw id meta',
       .schemaGet :: (tr ++ [.schemaGet, .dataUpdate idxRaw id]))

/-- `delete_documents(index, ids, filters, headers)` (lines 1115-1174):
ensure the index exists; with neither (truthy) filters nor (truthy) ids,
drop and recreate the whole class; otherwise scan with the filter, keep
only documents whose stored id is contained in the raw `ids` list when one
is given, and delete the matches one by one. -/
def deleteDocuments {F : Type} (cfg : Config) (co : Collab) (evalF : F → BObject → Bool)
    (b : Backend) (index : Option String) (ids : Option (List String)) (filters : Option F)
    (headers : Option PyVal) : Except WErr Unit × Backend × List BCall :=
  if headers.isSome then (.error .notImplemented, b, [])
  else
    let idx := resolveIndex cfg index
    let (b1, tr0) := createSchemaAndIndexIfNotExist cfg b (some idx)
    if filters.isNone && (ids.getD []).isEmpty then
      let b2 := bDeleteClass b1 idx
      let (b3, tr1) := createSchemaAndIndexIfNotExist cfg b2 (some idx)
      (.ok (), b3, tr0 ++ [.deleteClass idx] ++ tr1)
    else
      match getAllDocuments cfg co evalF b1 (some idx) filters Option.none Option.none with
      | (.ok docs, b2, tr1) =>
        let docsToDelete :=
          match ids with
          | some l => if l.isEmpty then docs else docs.filter (fun d => l.contains d.id)
          | Option.none => docs
        let b3 := docsToDelete.foldl (fun bb d => bDeleteObj bb d.id) b2
        (.ok (), b3, tr0 ++ tr1 ++ docsToDelete.map (fun d => .dataDelete d.id))
      | (.error e, b2, tr1) => (.error e, b2, tr0 ++ tr1)

/-! ## Concrete collaborator instances for closed statements -/

/-- A simple `YYYY-MM-DD` date shape, used by the sample date-conversion
collaborator below. -/
def looksLikeDate (s : String) : Bool :=
  match s.data with
  | [y1, y2, y3, y4, '-', m1, m2, '-', d1, d2] =>
    [y1, y2, y3, y4, m1, m2, d1, d2].all Char.isDigit
  | _ => false

/-- Sample `json.dumps` for the payloads in the closed statements. -/
def jsonDumpsStub : PyVal → String
  | .str s => "\"" ++ s ++ "\""
  | _ => "null"

/-- Sample `json.loads`, inverse of `jsonDumpsStub` on strings. -/
def jsonLoadsStub (s : String) : PyVal :=
  match s.data with
  | '"' :: rest => .str (String.mk rest.dropLast)
  | _ => .none

/-- One concrete instance of the collaborator bundle, used by closed
witness statements (date conversion accepts `YYYY-MM-DD` strings). -/
def collabStub : Collab :=
  { toRFC3339 := fun v =>
      match v with
      | .str s => if looksLikeDate s then some (.str (s ++ "T00:00:00Z")) else Option.none
      | _ => Option.none,
    jsonDumps := jsonDumpsStub,
    jsonLoads := jsonLoadsStub,
    normalizeEmbedding := id,
    dummyVec := .list [.float 1] }

/-- Trivial filter evaluation on the `Unit` filter type, for closed
statements that pass no filters. -/
def evalUnit : Unit → BObject → Bool := fun _ _ => true

/-! ## Association-list lemmas -/

/-- Unfolding `alookup` over a cons cell. -/
theorem alookup_cons (kv : String × PyVal) (rest : List (String × PyVal)) (k : String) :
    alookup (kv :: rest) k = if kv.1 = k then some kv.2 else alookup rest k := by
  by_cases h : kv.1 = k <;> simp [alookup, List.find?_cons, h]

/-- Unfolding `aremove` over a cons cell. -/
theorem aremove_cons (kv : String × PyVal) (rest : List (String × PyVal)) (k : String) :
    aremove (kv :: rest) k = if kv.1 = k then aremove rest k else kv :: aremove rest k := by
  by_cases h : kv.1 = k <;> simp [aremove, List.filter_cons, h]

/-- Unfolding `akeys` over a cons cell. -/
theorem akeys_cons (kv : String × PyVal) (rest : List (String × PyVal)) :
    akeys (kv :: rest) = kv.1 :: akeys rest := rfl

/-- A key is absent from a dict iff its lookup fails. -/
theorem alookup_eq_none_iff (kvs : List (String × PyVal)) (k : String) :
    alookup kvs k = Option.none ↔ k ∉ akeys kvs := by
  induction kvs with
  | nil => simp [alookup, akeys]
  | cons kv rest ih =>
    rw [alookup_cons, akeys_cons]
    by_cases h : kv.1 = k
    · simp [h]
    · rw [if_neg h, ih, List.mem_cons]
      constructor
      · rintro hk (he | he)
        · exact h he.symm
        · exact hk he
      · exact fun hmem hk => hmem (Or.inr hk)

/-- Removing a key does not change other lookups. -/
theorem alookup_aremove_ne (kvs : List (String × PyVal)) (k k' : String) (h : k' ≠ k) :
    alookup (aremove kvs k) k' = alookup kvs k' := by
  induction kvs with
  | nil => rfl
  | cons kv rest ih =>
    rw [aremove_cons, alookup_cons]
    by_cases hk : kv.1 = k
    · rw [if_pos hk, if_neg (by rw [hk]; exact fun e => h e.symm)]
      exact ih
    · rw [if_neg hk, alookup_cons]
      by_cases hk' : kv.1 = k' <;> simp [hk', ih]

/-- A removed key is gone. -/
theorem not_mem_akeys_aremove (kvs : List (String × PyVal)) (k : String) :
    k ∉ akeys (aremove kvs k) := by
  induction kvs with
  | nil => simp [aremove, akeys]
  | cons kv rest ih =>
    rw [aremove_cons]
    by_cases hk : kv.1 = k
    · rw [if_pos hk]; exact ih
    · rw [if_neg hk, akeys_cons]
      intro hmem
      rcases List.mem_cons.mp hmem with he | he
      · exact hk he.symm
      · exact ih he

/-- Removal only removes keys. -/
theorem akeys_aremove_subset (kvs : List (String × PyVal)) (k : String) :
    akeys (aremove kvs k) ⊆ akeys kvs := by
  induction kvs with
  | nil => simp [aremove]
  | cons kv rest ih =>
    rw [aremove_cons]
    by_cases hk : kv.1 = k
    · rw [if_pos hk]
      exact fun x hx => (akeys_cons kv rest) ▸ List.mem_cons_of_mem _ (ih hx)
    · rw [if_neg hk, akeys_cons, akeys_cons]
      intro x hx
      rcases List.mem_cons.mp hx with he | he
      · exact he ▸ List.mem_cons_self _ _
      · exact List.mem_cons_of_mem _ (ih he)

/-- Updating cannot lose keys. -/
theorem akeys_subset_aset (kvs : List (String × PyVal)) (k : String) (v : PyVal) :
    akeys kvs ⊆ akeys (aset kvs k v) := by
  unfold aset
  by_cases h : (kvs.find? (fun kv => kv.1 == k)).isSome
  · rw [if_pos h]
    intro x hx
    simp only [akeys, List.mem_map] at hx ⊢
    obtain ⟨kv, hmem, hk⟩ := hx
    by_cases hkv : kv.1 = k
    · refine ⟨(k, v), ?_, by rw [← hkv]; exact hk⟩
      have := List.mem_map_of_mem (fun kv => if kv.1 == k then (k, v) else kv) hmem
      simpa [hkv] using this
    · refine ⟨kv, ?_, hk⟩
      have := List.mem_map_of_mem (fun kv => if kv.1 == k then (k, v) else kv) hmem
      simpa [hkv] using this
  · rw [if_neg h]
    intro x hx
    simp only [akeys, List.map_append]
    exact List.mem_append_left _ hx

/-- Updating a present key keeps the key list unchanged. -/
theorem akeys_aset_of_mem (kvs : List (String × PyVal)) (k : String) (v : PyVal)
    (h : k ∈ akeys kvs) : akeys (aset kvs k v) = akeys kvs := by
  have hfind : (kvs.find? (fun kv => kv.1 == k)).isSome := by
    rw [List.find?_isSome]
    simp only [akeys, List.mem_map] at h
    obtain ⟨kv, hmem, hk⟩ := h
    exact ⟨kv, hmem, by simp [hk]⟩
  unfold aset
  rw [if_pos hfind]
  simp only [akeys, List.map_map]
  apply List.map_congr_left
  intro kv _
  by_cases hk : kv.1 = k <;> simp [hk]

/-- Updating adds at most the updated key. -/
theorem akeys_aset_subset (kvs : List (String × PyVal)) (k : String) (v : PyVal) :
    akeys (aset kvs k v) ⊆ k :: akeys kvs := by
  unfold aset
  by_cases h : (kvs.find? (fun kv => kv.1 == k)).isSome
  · rw [if_pos h]
    intro x hx
    simp only [akeys, List.map_map, List.mem_map, Function.comp] at hx
    obtain ⟨kv, hmem, hk⟩ := hx
    by_cases hkv : kv.1 = k
    · rw [if_pos (by simp [hkv])] at hk
      exact hk ▸ List.mem_cons_self _ _
    · rw [if_neg (by simpa using hkv)] at hk
      exact List.mem_cons_of_mem _ (hk ▸ List.mem_map_of_mem (fun kv => kv.1) hmem)
  · rw [if_neg h]
    intro x hx
    simp only [akeys, List.map_append, List.map_cons, List.map_nil] at hx
    rcases List.mem_append.mp hx with hx | hx
    · exact List.mem_cons_of_mem _ hx
    · simp only [List.mem_singleton] at hx
      exact hx ▸ List.mem_cons_self _ _

/-- Updating preserves key uniqueness. -/
theorem akeys_aset_nodup (kvs : List (String × PyVal)) (k : String) (v : PyVal)
    (h : (akeys kvs).Nodup) : (akeys (aset kvs k v)).Nodup := by
  unfold aset
  by_cases hf : (kvs.find? (fun kv => kv.1 == k)).isSome
  · rw [if_pos hf]
    have heq : akeys (kvs.map (fun kv => if kv.1 == k then (k, v) else kv)) = akeys kvs := by
      simp only [akeys, List.map_map]
      apply List.map_congr_left
      intro kv _
      by_cases hk : kv.1 = k <;> simp [hk]
    rw [heq]
    exact h
  · have hnm : k ∉ akeys kvs := by
      intro hmem
      apply hf
      rw [List.find?_isSome]
      simp only [akeys, List.mem_map] at hmem
      obtain ⟨kv, hm, hk⟩ := hmem
      exact ⟨kv, hm, by simp [hk]⟩
    rw [if_neg hf]
    have : akeys (kvs ++ [(k, v)]) = akeys kvs ++ [k] := by
      simp [akeys]
    rw [this]
    exact List.Nodup.append h (List.nodup_singleton _) (by
      intro x hx hx'
      simp only [List.mem_singleton] at hx'
      exact hnm (hx' ▸ hx))
  
/-- Keys of a filtered dict are among the original keys. -/
theorem akeys_filter_subset (kvs : List (String × PyVal)) (p : String × PyVal → Bool) :
    akeys (kvs.filter p) ⊆ akeys kvs := by
  intro x hx
  simp only [akeys, List.mem_map] at *
  obtain ⟨kv, hmem, hk⟩ := hx
  exact ⟨kv, List.mem_of_mem_filter hmem, hk⟩

/-- A found lookup means the key is present. -/
theorem alookup_isSome_iff (kvs : List (String × PyVal)) (k : String) :
    (alookup kvs k).isSome ↔ k ∈ akeys kvs := by
  rcases h : alookup kvs k with _ | v
  · simpa using (alookup_eq_none_iff kvs k).mp h
  · simp only [Option.isSome_some, true_iff]
    by_contra hmem
    rw [← alookup_eq_none_iff] at hmem
    rw [h] at hmem
    cases hmem

/-! ## The generated uuid matches `UUID_PATTERN` -/

/-- `hexTake` consumes exactly a hex block of its length. -/
theorem hexTake_exact : ∀ (l r : List Char), (∀ c ∈ l, isHexChar c) →
    hexTake l.length (l ++ r) = some r
  | [], r, _ => rfl
  | c :: cs, r, hh => by
    simp only [List.length_cons, List.cons_append, hexTake, hh c (List.mem_cons_self c cs),
      if_true]
    exact hexTake_exact cs r (fun x hx => hh x (List.mem_cons_of_mem _ hx))

/-- `hexTake` with an explicit length. -/
theorem hexTake_exact' (n : Nat) (l r : List Char) (hl : l.length = n)
    (hh : ∀ c ∈ l, isHexChar c) : hexTake n (l ++ r) = some r := by
  subst hl
  exact hexTake_exact l r hh

/-- `hexTake` consuming the whole input. -/
theorem hexTake_exact_nil (n : Nat) (l : List Char) (hl : l.length = n)
    (hh : ∀ c ∈ l, isHexChar c) : hexTake n l = some [] := by
  have := hexTake_exact' n l [] hl hh
  simpa using this

/-- Hex digits produced by `hexChar` are in the pattern's class. -/
theorem hexChar_isHexChar : ∀ n : Nat, n < 16 → isHexChar (hexChar n) = true := by decide

/-- Every character of a `hexdigest` is a hex character. -/
theorem hexdigestChars_all_hex (bs : List Nat) :
    ∀ c ∈ hexdigestChars bs, isHexChar c = true := by
  intro c hc
  simp only [hexdigestChars, List.mem_flatMap] at hc
  obtain ⟨b, _, hmem⟩ := hc
  simp only [byteHexChars, List.mem_cons, List.mem_singleton] at hmem
  rcases hmem with h | h | h
  · exact h ▸ hexChar_isHexChar _ (Nat.mod_lt _ (by omega))
  · exact h ▸ hexChar_isHexChar _ (Nat.mod_lt _ (by omega))
  · cases h

/-- A `hexdigest` has two characters per byte. -/
theorem hexdigestChars_length (bs : List Nat) :
    (hexdigestChars bs).length = 2 * bs.length := by
  induction bs with
  | nil => rfl
  | cons b rest ih =>
    simp only [hexdigestChars, List.flatMap_cons, List.length_append, byteHexChars] at *
    simp [ih]
    omega

/-- The SHA-256 digest has 32 bytes. -/
theorem sha256Bytes_length (msg : List Nat) : (sha256Bytes msg).length = 32 := by
  simp [sha256Bytes, wordBytes]

/-- Length of every second element. -/
theorem everySecond_length : ∀ (l : List Char), (everySecond l).length = (l.length + 1) / 2
  | [] => rfl
  | [_] => by simp [everySecond]
  | _ :: _ :: rest => by
    simp only [everySecond, List.length_cons]
    rw [everySecond_length rest]
    omega

/-- Every second element is among the original elements. -/
theorem everySecond_subset : ∀ (l : List Char), everySecond l ⊆ l
  | [] => by simp [everySecond]
  | [a] => by simp [everySecond]
  | a :: b :: rest => by
    intro x hx
    simp only [everySecond, List.mem_cons] at hx
    rcases hx with h | h
    · simp [h]
    · exact List.mem_cons_of_mem _ (List.mem_cons_of_mem _ (everySecond_subset rest h))

/-- The 32 generated hex digits, hyphenated 8-4-4-4-12, match the uuid
grammar. -/
theorem uuidChars_insertHyphens (ds : List Char) (hlen : ds.length = 32)
    (hhex : ∀ c ∈ ds, isHexChar c) : uuidChars (insertHyphens ds) = true := by
  have hx : ∀ (l : List Char), l ⊆ ds → ∀ c ∈ l, isHexChar c :=
    fun l hsub c hc => hhex c (hsub hc)
  have h8 : (ds.take 8).length = 8 := by simp [hlen]
  have hb : ((ds.drop 8).take 4).length = 4 := by simp [hlen]
  have hc : ((ds.drop 12).take 4).length = 4 := by simp [hlen]
  have hd : ((ds.drop 16).take 4).length = 4 := by simp [hlen]
  have he : (ds.drop 20).length = 12 := by simp [hlen]
  unfold uuidChars insertHyphens
  rw [hexTake_exact' 8 _ _ h8 (hx _ (List.take_subset _ _))]
  simp only [Option.some_bind, dashTake]
  rw [hexTake_exact' 4 _ _ hb (hx _ (fun c hc => List.drop_subset _ _ (List.take_subset _ _ hc)))]
  simp only [Option.some_bind, dashTake]
  rw [hexTake_exact' 4 _ _ hc (hx _ (fun c hc => List.drop_subset _ _ (List.take_subset _ _ hc)))]
  simp only [Option.some_bind, dashTake]
  rw [hexTake_exact' 4 _ _ hd (hx _ (fun c hc => List.drop_subset _ _ (List.take_subset _ _ hc)))]
  simp only [Option.some_bind, dashTake]
  rw [hexTake_exact_nil 12 _ he (hx _ (List.drop_subset _ _))]
  rfl

/-- The uuid generated for a non-conforming id always matches
`UUID_PATTERN`. -/
theorem uuidMatch_generatedUuid (id index : String) :
    uuidMatch (generatedUuid id index) = true := by
  have hlen : (everySecond (hexdigestChars (sha256Bytes (strBytes (id ++ index))))).length = 32 := by
    rw [everySecond_length, hexdigestChars_length, sha256Bytes_length]
  have hhex : ∀ c ∈ everySecond (hexdigestChars (sha256Bytes (strBytes (id ++ index)))),
      isHexChar c = true :=
    fun c hc => hexdigestChars_all_hex _ c (everySecond_subset _ hc)
  exact uuidChars_insertHyphens _ hlen hhex

/-- C5: `_sanitize_id` returns every string matching the canonical uuid
grammar (the compiled `UUID_PATTERN`) unchanged, for every index name; and
it is idempotent by value, because a generated replacement id itself
matches the grammar. -/
theorem sanitizeId_passthrough_and_idempotent :
    (∀ (cfg : Config) (s : String) (index : Option String),
      uuidMatch s = true → sanitizeId cfg s index = s) ∧
    (∀ (cfg : Config) (s : String) (index : Option String),
      sanitizeId cfg (sanitizeId cfg s index) index = sanitizeId cfg s index) := by
  constructor
  · intro cfg s index h
    simp [sanitizeId, h]
  · intro cfg s index
    by_cases h : uuidMatch s = true
    · simp [sanitizeId, h]
    · have h1 : sanitizeId cfg s index = generatedUuid s (resolveIndex cfg index) := by
        simp [sanitizeId, h]
      rw [h1]
      simp [sanitizeId, uuidMatch_generatedUuid]

/-- C5 witness: the passthrough at a concrete uuid and the idempotence at
the concrete non-conforming id `"doc-2"`. -/
theorem sanitizeId_passthrough_and_idempotent_witness :
    sanitizeId {} "1bad51b7-bd77-485d-8871-21c50fab248f" Option.none =
      "1bad51b7-bd77-485d-8871-21c50fab248f" ∧
    sanitizeId {} (sanitizeId {} "doc-2" Option.none) Option.none =
      sanitizeId {} "doc-2" Option.none :=
  ⟨sanitizeId_passthrough_and_idempotent.1 {} _ Option.none (by decide),
   sanitizeId_passthrough_and_idempotent.2 {} "doc-2" Option.none⟩

/-- C2 counterexample: for the boolean value `True` the inferred backend
type is `"int"`, not `"boolean"` — CPython booleans are integers, so the
`isinstance(value, int)` branch fires before the boolean branch (and a
non-date string infers `"string"`, not `"text"`). -/
theorem getWeaviateTypeOfValue_boolean_counterexample :
    ¬ (getWeaviateTypeOfValue (dateOkOf collabStub) (.bool true) = some "boolean") := by
  decide

/-- C2 (amended): the type-inference precedence actually implemented —
lists unwrap to their first element's scalar type suffixed `[]` (an empty
list raises `IndexError`), date-parseable strings infer `date`, other
strings infer `string`, integers and booleans infer `int` (the boolean
branch is unreachable), floats infer `number`. -/
theorem getWeaviateTypeOfValue_characterization (dateOk : String → Bool) :
    (∀ s, getWeaviateTypeOfValue dateOk (.str s) =
       some (if dateOk s then "date" else "string")) ∧
    (∀ n, getWeaviateTypeOfValue dateOk (.int n) = some "int") ∧
    (∀ q, getWeaviateTypeOfValue dateOk (.float q) = some "number") ∧
    (∀ b, getWeaviateTypeOfValue dateOk (.bool b) = some "int") ∧
    (∀ x xs, getWeaviateTypeOfValue dateOk (.list (x :: xs)) =
       some (weaviateScalarType dateOk x ++ "[]")) ∧
    getWeaviateTypeOfValue dateOk (.list []) = Option.none :=
  ⟨fun _ => rfl, fun _ => rfl, fun _ => rfl, fun _ => rfl, fun _ _ => rfl, rfl⟩

/-- Lookups other than `content_type` are unchanged by the content-type
pop. -/
theorem alookup_popContentType_ne (props : List (String × PyVal)) (k : String)
    (h : k ≠ "content_type") :
    alookup (popContentType props).2 k = alookup props k := by
  unfold popContentType
  cases h' : alookup props "content_type" with
  | none => simp [h']
  | some v =>
    by_cases hv : isNone v
    · simp [h', hv]
    · simp [h', hv, alookup_aremove_ne _ _ _ h]

/-- Keys of the content-type-popped props are among the original keys. -/
theorem akeys_popContentType_subset (props : List (String × PyVal)) :
    akeys (popContentType props).2 ⊆ akeys props := by
  unfold popContentType
  cases h' : alookup props "content_type" with
  | none => simp [h']
  | some v =>
    by_cases hv : isNone v
    · simp [h', hv]
    · simp only [h', hv, Bool.false_eq_true, if_false]
      exact akeys_aremove_subset _ _

/-- C3: the codec normalizes both response shapes — fields are read from a
non-empty `properties` dict and from the result root otherwise; a present
`_additional` dict's `id` and `vector` take precedence over the root
values and its `certainty` becomes the score; and the `_additional` key
never survives into the document's meta. -/
theorem convertResult_shape_precedence_meta :
    (∀ (result kvs : List (String × PyVal)),
       alookup result "properties" = some (.dict kvs) → kvs ≠ [] →
       selectProps result = kvs) ∧
    (∀ result : List (String × PyVal),
       alookup result "properties" = Option.none → selectProps result = result) ∧
    (∀ result : List (String × PyVal),
       alookup result "properties" = some (.dict []) → selectProps result = result) ∧
    (∀ (cfg : Config) (jl : String → PyVal) (result : List (String × PyVal)) (re : Bool)
       (add : List (String × PyVal)),
       alookup (selectProps result) "_additional" = some (.dict add) →
       (∀ i, alookup add "id" = some (.str i) → (convertResult cfg jl result re).id = i) ∧
       (∀ v, alookup add "vector" = some v → (convertResult cfg jl result re).embedding = v) ∧
       (∀ c, alookup add "certainty" = some c → (convertResult cfg jl result re).score = c)) ∧
    (∀ (cfg : Config) (jl : String → PyVal) (result : List (String × PyVal)) (re : Bool),
       (∀ v, alookup (selectProps result) "_additional" = some v → ∃ add, v = .dict add) →
       "_additional" ∉ akeys (convertResult cfg jl result re).meta) := by
  refine ⟨?_, ?_, ?_, ?_, ?_⟩
  · intro result kvs h hne
    simp [selectProps, h, hne]
  · intro result h
    simp [selectProps, h]
  · intro result h
    simp [selectProps, h]
  · intro cfg jl result re add h
    have h2 : alookup (popContentType (selectProps result)).2 "_additional" =
        some (.dict add) := by
      rw [alookup_popContentType_ne _ _ (by decide)]
      exact h
    refine ⟨?_, ?_, ?_⟩
    · intro i hi
      simp [convertResult, addOverride, h2, hi, asStrD]
    · intro v hv
      simp [convertResult, addOverride, h2, hv]
    · intro c hc
      simp [convertResult, addOverride, h2, hc]
  · intro cfg jl result re hdict
    have hsub : akeys (convertResult cfg jl result re).meta ⊆
        akeys (addOverride (popContentType (selectProps result)).2
          ((alookup result "id").getD .none) ((alookup result "vector").getD .none)).2.2.2 := by
      simp only [convertResult]
      exact akeys_filter_subset _ _
    intro hmem
    have hmem2 := hsub hmem
    rcases h' : alookup (popContentType (selectProps result)).2 "_additional" with _ | v
    · simp only [addOverride, h'] at hmem2
      exact (alookup_eq_none_iff _ "_additional").mp h' hmem2
    · have hs : alookup (selectProps result) "_additional" = some v := by
        rw [← alookup_popContentType_ne _ _ (by decide)]
        exact h'
      obtain ⟨add, rfl⟩ := hdict v hs
      simp only [addOverride, h'] at hmem2
      exact not_mem_akeys_aremove _ _ hmem2

/-- The `_additional` dict of the concrete C3 result below. -/
def addC3 : List (String × PyVal) :=
  [("id", .str "u1"), ("certainty", .float 1), ("vector", .list [])]

/-- Properties dict of the concrete C3 result below. -/
def kvsC3 : List (String × PyVal) :=
  [("content", .str "\"t\""), ("content_type", .str "text"), ("extra", .int 1),
   ("_additional", .dict addC3)]

/-- A concrete get-shaped backend result with an `_additional` side
channel and conflicting root-level id and vector. -/
def resC3 : List (String × PyVal) :=
  [("properties", .dict kvsC3), ("id", .str "root-id"), ("vector", .int 0)]

/-- C3 witness: on the concrete result, fields are read from the non-empty
`properties` dict, `_additional` overrides the root id and vector and
supplies the score, and `_additional` is absent from the meta. -/
theorem convertResult_shape_precedence_meta_witness :
    selectProps resC3 = kvsC3 ∧
    (convertResult {} jsonLoadsStub resC3 true).id = "u1" ∧
    (convertResult {} jsonLoadsStub resC3 true).embedding = .list [] ∧
    (convertResult {} jsonLoadsStub resC3 true).score = .float 1 ∧
    "_additional" ∉ akeys (convertResult {} jsonLoadsStub resC3 true).meta := by
  have h1 : alookup resC3 "properties" = some (.dict kvsC3) := rfl
  have h2 : alookup (selectProps resC3) "_additional" = some (.dict addC3) := rfl
  exact ⟨convertResult_shape_precedence_meta.1 resC3 kvsC3 h1 (List.cons_ne_nil _ _),
    (convertResult_shape_precedence_meta.2.2.2.1 {} jsonLoadsStub resC3 true addC3 h2).1
      "u1" rfl,
    (convertResult_shape_precedence_meta.2.2.2.1 {} jsonLoadsStub resC3 true addC3 h2).2.1
      (.list []) rfl,
    (convertResult_shape_precedence_meta.2.2.2.1 {} jsonLoadsStub resC3 true addC3 h2).2.2
      (.float 1) rfl,
    convertResult_shape_precedence_meta.2.2.2.2 {} jsonLoadsStub resC3 true
      (fun v hv => ⟨addC3, by rw [h2] at hv; exact (Option.some_injective _ hv).symm⟩)⟩

/-- The per-id fetch loop, characterized declaratively: found documents in
input order via `filterMap`, one `get_by_id` call per input id. -/
theorem getDocumentsByIdGo_eq (cfg : Config) (co : Collab) (b : Backend) (idx : String) :
    ∀ ids : List String,
      getDocumentsByIdGo cfg co b idx ids =
        (ids.filterMap (fun i => (bGetById b (sanitizeId cfg i (some idx))).map
            (fun o => convertResult cfg co.jsonLoads (objResult o) true)),
         ids.map (fun i => BCall.getById (sanitizeId cfg i (some idx))))
  | [] => rfl
  | i :: is => by
    simp only [getDocumentsByIdGo, getDocumentsByIdGo_eq cfg co b idx is]
    cases h : bGetById b (sanitizeId cfg i (some idx)) <;>
      simp [h, List.filterMap_cons]

/-- C6: `get_documents_by_id` fetches sequentially, one backend get per
input id, returns the found documents in input order, and silently omits
absent ids. -/
theorem getDocumentsById_ordered_found_only (cfg : Config) (co : Collab) (b : Backend)
    (ids : List String) (index : Option String) :
    getDocumentsById cfg co b ids index Option.none =
      (.ok (ids.filterMap (fun i =>
          (bGetById b (sanitizeId cfg i (some (resolveIndex cfg index)))).map
            (fun o => convertResult cfg co.jsonLoads (objResult o) true))),
       b,
       ids.map (fun i => BCall.getById (sanitizeId cfg i (some (resolveIndex cfg index))))) := by
  simp only [getDocumentsById, Option.isSome_none, Bool.false_eq_true, if_false,
    getDocumentsByIdGo_eq]

/-- C7: `get_document_count` with `only_documents_without_embedding=True`
returns 0 with no backend call and no look at the filters, for every
filter value, filter semantics and index. -/
theorem getDocumentCount_without_embedding_zero {F : Type} (cfg : Config)
    (evalF : F → BObject → Bool) (b : Backend) (filters : Option F) (index : Option String) :
    getDocumentCount cfg evalF b filters index true Option.none = (.ok 0, b, []) := rfl

/-- Calls that execute a backend query (GraphQL `Get` or raw). -/
def isQueryCall : BCall → Bool
  | .queryGet _ _ _ => true
  | .queryRaw _ => true
  | _ => false

/-- C8: a text-only `query` call (no truthy filters, no truthy custom
query) raises `NotImplementedError` having issued no backend query (only
the schema read for the property list); a non-empty custom query goes
through the raw passthrough and a supplied filter through a filtered `Get`,
neither raising. -/
theorem query_text_only_raises :
    (∀ (F : Type) (cfg : Config) (co : Collab) (evalF : F → BObject → Bool)
       (rawResults : String → List (List (String × PyVal))) (b : Backend)
       (q : Option String) (topK : Nat) (index : Option String),
       query cfg co evalF rawResults b q Option.none topK Option.none index =
         (.error .notImplemented, b, [.schemaGet]) ∧
       ((query cfg co evalF rawResults b q Option.none topK Option.none index).2.2.filter
          isQueryCall) = []) ∧
    (∀ (F : Type) (cfg : Config) (co : Collab) (evalF : F → BObject → Bool)
       (rawResults : String → List (List (String × PyVal))) (b : Backend)
       (q : Option String) (topK : Nat) (index : Option String) (c : String),
       c ≠ "" →
       query cfg co evalF rawResults b q Option.none topK (some c) index =
         (.ok ((rawResults c).map (fun r => convertResult cfg co.jsonLoads r true)), b,
          [.schemaGet, .queryRaw c])) ∧
    (∀ (F : Type) (cfg : Config) (co : Collab) (evalF : F → BObject → Bool)
       (rawResults : String → List (List (String × PyVal))) (b : Backend)
       (q : Option String) (topK : Nat) (index : Option String) (f : F),
       query cfg co evalF rawResults b q (some f) topK Option.none index =
         (.ok ((bQueryGet b (resolveIndex cfg index) (some (evalF f)) (some topK)).map
             (fun r => convertResult cfg co.jsonLoads r true)), b,
          [.schemaGet, .queryGet (resolveIndex cfg index) true (some topK)])) := by
  refine ⟨fun F cfg co evalF rawResults b q topK index => ⟨rfl, rfl⟩,
    fun F cfg co evalF rawResults b q topK index c hc => ?_,
    fun F cfg co evalF rawResults b q topK index f => rfl⟩
  simp [query, hc]

/-- C8 witness: the three branches at concrete arguments. -/
theorem query_text_only_raises_witness :
    query {} collabStub evalUnit (fun _ => []) {} Option.none (Option.none : Option Unit) 10
        Option.none Option.none =
      (.error .notImplemented, ({} : Backend), [.schemaGet]) ∧
    query {} collabStub evalUnit (fun _ => []) {} Option.none (Option.none : Option Unit) 10
        (some "custom-graphql-query") Option.none =
      (.ok [], ({} : Backend), [.schemaGet, .queryRaw "custom-graphql-query"]) ∧
    query {} collabStub evalUnit (fun _ => []) {} Option.none (some ()) 10
        Option.none Option.none =
      (.ok [], ({} : Backend), [.schemaGet, .queryGet "Document" true (some 10)]) :=
  ⟨(query_text_only_raises.1 Unit {} collabStub evalUnit (fun _ => []) {} Option.none 10
      Option.none).1,
   query_text_only_raises.2.1 Unit {} collabStub evalUnit (fun _ => []) {} Option.none 10
      Option.none "custom-graphql-query" (by decide),
   query_text_only_raises.2.2 Unit {} collabStub evalUnit (fun _ => []) {} Option.none 10
      Option.none ()⟩

/-! ## The delete-by-caller-id scenario (spec section 8) -/

/-- Three documents written under the caller ids of the spec's scenario. -/
def scenarioDocs : List WDoc :=
  [{ id := "doc-1", content := .str "text_1", embedding := .list [.float 1] },
   { id := "doc-2", content := .str "text_2", embedding := .list [.float 1] },
   { id := "doc-3", content := .str "text_3", embedding := .list [.float 1] }]

/-- The backend after writing the three scenario documents into a fresh
store with the default configuration. -/
def scenarioAfterWrite : Backend :=
  (writeDocuments {} collabStub {} scenarioDocs Option.none 10000 Option.none Option.none).2.1

/-- The backend after `delete_documents(ids=["doc-2"])` on the scenario
store. -/
def scenarioAfterDelete : Backend :=
  (deleteDocuments {} collabStub evalUnit scenarioAfterWrite Option.none (some ["doc-2"])
    (Option.none : Option Unit) Option.none).2.1

/-- Whether a `get_document_by_id` result holds a document. -/
def foundDocument : Except WErr (Option HDoc) → Bool
  | .ok (some _) => true
  | _ => false

set_option maxRecDepth 100000 in
/-- C1, evaluated at the spec scenario: the write succeeds and the count is
3, but `delete_documents(ids=["doc-2"])` deletes nothing — the count stays
3 and `get_document_by_id("doc-2")` still finds the document — because the
stored canonical uuids are compared against the raw caller ids without
normalization (`"doc-2"` is not uuid-shaped, so its stored id differs from
it). -/
theorem deleteDocuments_ids_scenario_not_deleted :
    (writeDocuments {} collabStub {} scenarioDocs Option.none 10000 Option.none
        Option.none).1 = .ok () ∧
    (getDocumentCount {} evalUnit scenarioAfterWrite (Option.none : Option Unit) Option.none
        false Option.none).1 = .ok 3 ∧
    (deleteDocuments {} collabStub evalUnit scenarioAfterWrite Option.none (some ["doc-2"])
        (Option.none : Option Unit) Option.none).1 = .ok () ∧
    (getDocumentCount {} evalUnit scenarioAfterDelete (Option.none : Option Unit) Option.none
        false Option.none).1 = .ok 3 ∧
    foundDocument (getDocumentById {} collabStub scenarioAfterDelete "doc-2" Option.none
        Option.none).1 = true ∧
    uuidMatch "doc-2" = false ∧
    sanitizeId {} "doc-2" Option.none ≠ "doc-2" :=
  ⟨by rfl, by rfl, by rfl, by rfl, by rfl, by decide, by decide⟩

/-! ## C4: the in-call schema snapshot migrates each missing property once -/

/-- Names of properties migrated by `_update_schema` calls in a trace. -/
def migratedNames (tr : List BCall) : List String :=
  tr.filterMap (fun c => match c with
    | .propertyCreate _ p => some p.name
    | _ => Option.none)

/-- `migratedNames` distributes over trace concatenation. -/
theorem migratedNames_append (a b : List BCall) :
    migratedNames (a ++ b) = migratedNames a ++ migratedNames b :=
  List.filterMap_append a b _

/-- Ensuring the index migrates nothing. -/
theorem migratedNames_createSchema (cfg : Config) (b : Backend) (index : Option String) :
    migratedNames (createSchemaAndIndexIfNotExist cfg b index).2 = [] := by
  unfold createSchemaAndIndexIfNotExist
  dsimp only
  split <;> rfl

/-- A successful `migrateProps` run migrates exactly the given names, in
order, and appends them to the snapshot. -/
theorem migrateProps_ok (cfg : Config) (dateOk : String → Bool) (idx : String)
    (fdoc : List (String × PyVal)) :
    ∀ (ps cur : List String) (b : Backend) (cur2 : List String) (b2 : Backend)
      (tr : List BCall),
      migrateProps cfg dateOk idx fdoc ps cur b = (.ok cur2, b2, tr) →
      migratedNames tr = ps ∧ cur2 = cur ++ ps
  | [], cur, b, cur2, b2, tr, h => by
    simp only [migrateProps, Prod.mk.injEq, Except.ok.injEq] at h
    obtain ⟨h1, _, h3⟩ := h
    subst h1
    subst h3
    exact ⟨rfl, by simp⟩
  | p :: ps, cur, b, cur2, b2, tr, h => by
    simp only [migrateProps] at h
    rcases hup : updateSchema cfg dateOk b p ((alookup fdoc p).getD .none) (some idx) with e | bc
    · rw [hup] at h
      simp at h
    · obtain ⟨b', call⟩ := bc
      rw [hup] at h
      dsimp only at h
      rcases hrec : migrateProps cfg dateOk idx fdoc ps (cur ++ [p]) b' with ⟨r, brec, trrec⟩
      rw [hrec] at h
      simp only [Prod.mk.injEq] at h
      obtain ⟨h1, _, h3⟩ := h
      obtain ⟨hm, hc⟩ := migrateProps_ok cfg dateOk idx fdoc ps (cur ++ [p]) b' cur2 brec trrec
        (by rw [hrec, h1])
      have hcall : ∃ cn dts, call = BCall.propertyCreate cn ⟨p, dts⟩ := by
        unfold updateSchema at hup
        rcases hty : getWeaviateTypeOfValue dateOk ((alookup fdoc p).getD .none) with _ | dt
        · rw [hty] at hup
          cases hup
        · rw [hty] at hup
          simp only [Except.ok.injEq, Prod.mk.injEq] at hup
          exact ⟨_, _, hup.2.symm⟩
      obtain ⟨cn, dts, rfl⟩ := hcall
      constructor
      · rw [← h3]
        show p :: migratedNames trrec = p :: ps
        rw [hm]
      · rw [hc]
        simp

/-- Folding meta entries into a dict preserves key uniqueness. -/
theorem akeys_foldl_aset_nodup (l : List (String × PyVal)) :
    ∀ m : List (String × PyVal), (akeys m).Nodup →
      (akeys (l.foldl (fun acc kv => aset acc kv.1 kv.2) m)).Nodup := by
  induction l with
  | nil => exact fun m h => h
  | cons kv rest ih => exact fun m h => ih _ (akeys_aset_nodup _ _ _ h)

/-- Removal keeps the key list a sublist. -/
theorem akeys_aremove_sublist (kvs : List (String × PyVal)) (k : String) :
    List.Sublist (akeys (aremove kvs k)) (akeys kvs) :=
  (List.filter_sublist _).map _

/-- The field dict of a document has unique keys (it models a Python
dict). -/
theorem akeys_toDict_nodup (cfg : Config) (d : WDoc) : (akeys (toDict cfg d)).Nodup := by
  unfold toDict
  apply akeys_aset_nodup
  apply akeys_aset_nodup
  apply akeys_aset_nodup
  apply akeys_aset_nodup
  apply akeys_aset_nodup
  apply akeys_aset_nodup
  simp [akeys]

/-- The flattened `_doc` sent to the batch has unique keys. -/
theorem flatDoc_ok_nodup (cfg : Config) (jd : PyVal → String) (d : WDoc)
    (fd : List (String × PyVal)) (i : String) (v : PyVal)
    (h : flatDoc cfg jd d = .ok (fd, i, v)) : (akeys fd).Nodup := by
  have base : (akeys (aremove (aremove ((d.meta.foldl (fun acc kv => aset acc kv.1 kv.2)
      (aremove (toDict cfg d) "score"))) "meta") "id")).Nodup := by
    apply List.Nodup.sublist (akeys_aremove_sublist _ _)
    apply List.Nodup.sublist (akeys_aremove_sublist _ _)
    apply akeys_foldl_aset_nodup
    apply List.Nodup.sublist (akeys_aremove_sublist _ _)
    exact akeys_toDict_nodup cfg d
  unfold flatDoc at h
  dsimp only at h
  rcases h1 : alookup (aremove (aremove ((d.meta.foldl (fun acc kv => aset acc kv.1 kv.2)
      (aremove (toDict cfg d) "score"))) "meta") "id") cfg.embeddingField with _ | vec
  · rw [h1] at h
    cases h
  · rw [h1] at h
    dsimp only at h
    rcases h2 : alookup (aremove (aremove (aremove ((d.meta.foldl
        (fun acc kv => aset acc kv.1 kv.2) (aremove (toDict cfg d) "score"))) "meta") "id")
        cfg.embeddingField) "content" with _ | cv
    · rw [h2] at h
      cases h
    · rw [h2] at h
      dsimp only at h
      simp only [Except.ok.injEq, Prod.mk.injEq] at h
      rw [← h.1]
      apply akeys_aset_nodup
      apply List.Nodup.sublist (akeys_aremove_sublist _ _)
      exact base

/-- The key set of the flat `_doc` a document contributes (empty when
flattening raises). -/
def flatKeys (cfg : Config) (co : Collab) (d : WDoc) : List String :=
  match flatDoc cfg co.jsonDumps d with
  | .ok x => akeys x.1
  | .error _ => []

/-- Flat keys are unique. -/
theorem flatKeys_nodup (cfg : Config) (co : Collab) (d : WDoc) : (flatKeys cfg co d).Nodup := by
  unfold flatKeys
  rcases h : flatDoc cfg co.jsonDumps d with e | x
  · simp
  · obtain ⟨fd, i, v⟩ := x
    exact flatDoc_ok_nodup cfg co.jsonDumps d fd i v h

/-- `List.contains` on strings decides membership. -/
theorem string_contains_iff (l : List String) (a : String) : l.contains a = true ↔ a ∈ l := by
  simp [List.contains_iff_exists_mem_beq]

/-- A successful `processDoc` migrates exactly the document's flat keys
missing from the snapshot and appends them to it. -/
theorem processDoc_ok (cfg : Config) (co : Collab) (idx : String) (cur : List String)
    (b : Backend) (d : WDoc) (cur2 : List String) (entry : BObject) (b2 : Backend)
    (tr : List BCall)
    (h : processDoc cfg co idx cur b d = (.ok (cur2, entry), b2, tr)) :
    migratedNames tr = (flatKeys cfg co d).filter (fun k => !cur.contains k) ∧
    cur2 = cur ++ (flatKeys cfg co d).filter (fun k => !cur.contains k) := by
  unfold processDoc at h
  rcases hf : flatDoc cfg co.jsonDumps d with e | x
  · rw [hf] at h
    cases h
  · obtain ⟨fdoc, docId, vec⟩ := x
    rw [hf] at h
    dsimp only at h
    rcases hm : migrateProps cfg (dateOkOf co) idx fdoc (checkDocument cur fdoc) cur b with
      ⟨r, bm, trm⟩
    rw [hm] at h
    rcases r with e | cur'
    · dsimp only at h
      cases h
    · dsimp only at h
      rcases hc : coerceDates co.toRFC3339 (getDateProperties cfg bm (some idx)) fdoc with
        e | fdoc'
      · rw [hc] at h
        dsimp only at h
        cases h
      · rw [hc] at h
        dsimp only at h
        simp only [Prod.mk.injEq, Except.ok.injEq] at h
        obtain ⟨⟨hcur, _⟩, _, htr⟩ := h
        have hkeys : flatKeys cfg co d = akeys fdoc := by
          unfold flatKeys
          rw [hf]
        obtain ⟨hm1, hm2⟩ := migrateProps_ok cfg (dateOkOf co) idx fdoc _ cur b cur' bm trm hm
        have hcheck : checkDocument cur fdoc =
            (flatKeys cfg co d).filter (fun k => !cur.contains k) := by
          rw [hkeys]
          rfl
        constructor
        · rw [← htr, migratedNames_append, hm1, hcheck]
          simp [migratedNames]
        · rw [← hcur, hm2, hcheck]

/-- Invariant of the per-batch document loop: on success the snapshot grows
by exactly the migrated names; those are duplicate-free, absent from the
starting snapshot, all drawn from the processed documents' flat keys, and
every processed document's flat keys end up in the final snapshot. -/
theorem processDocsGo_ok (cfg : Config) (co : Collab) (idx : String) :
    ∀ (ds : List WDoc) (cur : List String) (b : Backend) (cur2 : List String)
      (entries : List BObject) (b2 : Backend) (tr : List BCall),
      processDocsGo cfg co idx ds cur b = (.ok (cur2, entries), b2, tr) →
      cur2 = cur ++ migratedNames tr ∧
      (migratedNames tr).Nodup ∧
      (∀ p ∈ migratedNames tr, p ∉ cur) ∧
      (∀ p ∈ migratedNames tr, ∃ d ∈ ds, p ∈ flatKeys cfg co d) ∧
      (∀ d ∈ ds, ∀ k ∈ flatKeys cfg co d, k ∈ cur2)
  | [], cur, b, cur2, entries, b2, tr, h => by
    simp only [processDocsGo, Prod.mk.injEq, Except.ok.injEq] at h
    obtain ⟨⟨h1, _⟩, _, h3⟩ := h
    subst h1
    subst h3
    simp [migratedNames]
  | d :: ds, cur, b, cur2, entries, b2, tr, h => by
    simp only [processDocsGo] at h
    rcases hp : processDoc cfg co idx cur b d with ⟨r1, b1, tr1⟩
    rw [hp] at h
    rcases r1 with e | x1
    · dsimp only at h
      cases h
    · obtain ⟨cur1, entry⟩ := x1
      dsimp only at h
      rcases hrec : processDocsGo cfg co idx ds cur1 b1 with ⟨r2, brec, tr2⟩
      rw [hrec] at h
      rcases r2 with e | x2
      · dsimp only at h
        cases h
      · obtain ⟨currec, entriesrec⟩ := x2
        dsimp only at h
        simp only [Prod.mk.injEq, Except.ok.injEq] at h
        obtain ⟨⟨hcur2, _⟩, _, htr⟩ := h
        obtain ⟨hm1, hcur1⟩ := processDoc_ok cfg co idx cur b d cur1 entry b1 tr1 hp
        obtain ⟨ih1, ih2, ih3, ih4, ih5⟩ := processDocsGo_ok cfg co idx ds cur1 b1 currec
          entriesrec brec tr2 hrec
        have hmtr : migratedNames tr = migratedNames tr1 ++ migratedNames tr2 := by
          rw [← htr, migratedNames_append]
        have hm1nodup : (migratedNames tr1).Nodup := by
          rw [hm1]
          exact List.Nodup.filter _ (flatKeys_nodup cfg co d)
        have hfresh1 : ∀ p ∈ migratedNames tr1, p ∉ cur := by
          intro p hpmem
          rw [hm1] at hpmem
          have := List.of_mem_filter hpmem
          simpa [string_contains_iff] using this
        have hsub1 : ∀ p ∈ migratedNames tr1, p ∈ cur1 := by
          intro p hpmem
          rw [hcur1]
          rw [hm1] at hpmem
          exact List.mem_append_right _ hpmem
        refine ⟨?_, ?_, ?_, ?_, ?_⟩
        · rw [← hcur2, ih1, hcur1, hmtr, List.append_assoc, hm1]
        · rw [hmtr]
          refine List.Nodup.append hm1nodup ih2 ?_
          intro p hp1 hp2
          exact ih3 p hp2 (hsub1 p hp1)
        · intro p hpmem
          rw [hmtr] at hpmem
          rcases List.mem_append.mp hpmem with hp | hp
          · exact hfresh1 p hp
          · intro hcurmem
            exact ih3 p hp (by rw [hcur1]; exact List.mem_append_left _ hcurmem)
        · intro p hpmem
          rw [hmtr] at hpmem
          rcases List.mem_append.mp hpmem with hp | hp
          · refine ⟨d, List.mem_cons_self _ _, ?_⟩
            rw [hm1] at hp
            exact List.mem_of_mem_filter hp
          · obtain ⟨d', hd', hk⟩ := ih4 p hp
            exact ⟨d', List.mem_cons_of_mem _ hd', hk⟩
        · intro d' hd' k hk
          rcases List.mem_cons.mp hd' with he | he
          · subst he
            have hin1 : k ∈ cur1 := by
              rw [hcur1]
              by_cases hc : k ∈ cur
              · exact List.mem_append_left _ hc
              · refine List.mem_append_right _ ?_
                rw [List.mem_filter]
                refine ⟨hk, ?_⟩
                simp [string_contains_iff, hc]
            rw [← hcur2, ih1]
            exact List.mem_append_left _ hin1
          · rw [← hcur2]
            exact ih5 d' he k hk

/-- Invariant of the batch loop: across the entire call, migrated names
are duplicate-free, absent from the starting snapshot, drawn from the
processed documents, and cover every flat key of every processed
document. -/
theorem processBatchesGo_ok (cfg : Config) (co : Collab) (idx : String) :
    ∀ (bs : List (List WDoc)) (cur : List String) (b : Backend) (b2 : Backend)
      (tr : List BCall),
      processBatchesGo cfg co idx bs cur b = (.ok (), b2, tr) →
      (migratedNames tr).Nodup ∧
      (∀ p ∈ migratedNames tr, p ∉ cur) ∧
      (∀ p ∈ migratedNames tr, ∃ d ∈ bs.flatten, p ∈ flatKeys cfg co d) ∧
      (∀ d ∈ bs.flatten, ∀ k ∈ flatKeys cfg co d, k ∈ cur ++ migratedNames tr)
  | [], cur, b, b2, tr, h => by
    simp only [processBatchesGo, Prod.mk.injEq] at h
    obtain ⟨_, _, h3⟩ := h
    subst h3
    simp [migratedNames]
  | batch :: rest, cur, b, b2, tr, h => by
    simp only [processBatchesGo] at h
    rcases hp : processDocsGo cfg co idx batch cur b with ⟨r1, b1, tr1⟩
    rw [hp] at h
    rcases r1 with e | x1
    · dsimp only at h
      cases h
    · obtain ⟨cur1, entries⟩ := x1
      dsimp only at h
      rcases hrec : processBatchesGo cfg co idx rest cur1 (bBatchCreate b1 entries) with
        ⟨r2, brec, tr2⟩
      rw [hrec] at h
      dsimp only at h
      simp only [Prod.mk.injEq] at h
      obtain ⟨hr, _, htr⟩ := h
      subst hr
      obtain ⟨hcur1, hm1nodup, hfresh1, hcov1, hkeys1⟩ := processDocsGo_ok cfg co idx batch cur
        b cur1 entries b1 tr1 hp
      obtain ⟨ih1, ih2, ih3, ih4⟩ := processBatchesGo_ok cfg co idx rest cur1
        (bBatchCreate b1 entries) brec tr2 hrec
      have hmtr : migratedNames tr = migratedNames tr1 ++ migratedNames tr2 := by
        rw [← htr, migratedNames_append, migratedNames_append]
        simp [migratedNames]
      have hm1mem : ∀ p ∈ migratedNames tr1, p ∈ cur1 := by
        intro p hpmem
        rw [hcur1]
        exact List.mem_append_right _ hpmem
      refine ⟨?_, ?_, ?_, ?_⟩
      · rw [hmtr]
        refine List.Nodup.append hm1nodup ih1 ?_
        intro p hp1 hp2
        exact ih2 p hp2 (hm1mem p hp1)
      · intro p hpmem
        rw [hmtr] at hpmem
        rcases List.mem_append.mp hpmem with hp | hp
        · exact hfresh1 p hp
        · intro hcurmem
          exact ih2 p hp (by rw [hcur1]; exact List.mem_append_left _ hcurmem)
      · intro p hpmem
        rw [hmtr] at hpmem
        rcases List.mem_append.mp hpmem with hp | hp
        · obtain ⟨d, hd, hk⟩ := hcov1 p hp
          exact ⟨d, by simp only [List.flatten_cons]; exact List.mem_append_left _ hd, hk⟩
        · obtain ⟨d, hd, hk⟩ := ih3 p hp
          exact ⟨d, by simp only [List.flatten_cons]; exact List.mem_append_right _ hd, hk⟩
      · intro d hd k hk
        simp only [List.flatten_cons] at hd
        rcases List.mem_append.mp hd with hdm | hdm
        · have := hkeys1 d hdm k hk
          rw [hcur1] at this
          rw [hmtr, ← List.append_assoc]
          exact List.mem_append_left _ this
        · have := ih4 d hdm k hk
          rw [hcur1] at this
          rw [hmtr, ← List.append_assoc]
          rcases List.mem_append.mp this with hin | hin
          · exact List.mem_append_left _ hin
          · exact List.mem_append_right _ hin

/-- Flattening the batches recovers the prepared document list. -/
theorem chunksOfGo_flatten {α : Type} (n : Nat) :
    ∀ (acc l : List α), (chunksOfGo n acc l).flatten = acc.reverse ++ l
  | acc, [] => by
    simp only [chunksOfGo]
    by_cases h : acc.isEmpty
    · rw [if_pos h]
      rw [List.isEmpty_iff] at h
      subst h
      rfl
    · rw [if_neg h]
      simp
  | acc, x :: xs => by
    simp only [chunksOfGo]
    by_cases h : acc.length + 1 = n
    · rw [if_pos h]
      simp only [List.flatten_cons, chunksOfGo_flatten n [] xs]
      simp
    · rw [if_neg h]
      rw [chunksOfGo_flatten n (x :: acc) xs]
      simp

/-- C4: within one successful `write_documents` call, the schema property
list fetched once at the start serves as the in-call snapshot — every
distinct property name appearing in the processed documents' flat dicts
but absent from that snapshot is migrated by exactly one `_update_schema`
call across the entire call (the migrated names are duplicate-free and
cover all missing keys), no snapshot property is ever migrated, and
nothing outside the documents is migrated. -/
theorem writeDocuments_migrates_each_missing_once (cfg : Config) (co : Collab) (b : Backend)
    (documents : List WDoc) (index : Option String) (batchSize : Nat) (dupArg : Option String)
    (docs : List WDoc)
    (hok : (writeDocuments cfg co b documents index batchSize dupArg Option.none).1 = .ok ())
    (hprep : prepareDocs cfg co
        (createSchemaAndIndexIfNotExist cfg b (some (resolveIndex cfg index))).1
        (resolveIndex cfg index) (dupArg.getD cfg.duplicateDocuments) documents = .ok docs) :
    ∀ tr cur,
      tr = (writeDocuments cfg co b documents index batchSize dupArg Option.none).2.2 →
      cur = getCurrentProperties cfg
        (createSchemaAndIndexIfNotExist cfg b (some (resolveIndex cfg index))).1
        (some (resolveIndex cfg index)) →
      (migratedNames tr).Nodup ∧
      (∀ p ∈ migratedNames tr, p ∉ cur) ∧
      (∀ p ∈ migratedNames tr, ∃ d ∈ docs, p ∈ flatKeys cfg co d) ∧
      (∀ d ∈ docs, ∀ k ∈ flatKeys cfg co d, k ∈ cur ∨ k ∈ migratedNames tr) := by
  intro tr cur htr hcur
  by_cases hdup : dupArg.getD cfg.duplicateDocuments = "skip" ∨
      dupArg.getD cfg.duplicateDocuments = "overwrite" ∨
      dupArg.getD cfg.duplicateDocuments = "fail"
  · by_cases hemp : documents.isEmpty
    · have hdocs : docs = [] := by
        rw [List.isEmpty_iff] at hemp
        subst hemp
        unfold prepareDocs handleDuplicateDocuments at hprep
        by_cases h1 : dupArg.getD cfg.duplicateDocuments = "skip"
        · simp [h1, Except.map] at hprep
          exact hprep
        · by_cases h2 : dupArg.getD cfg.duplicateDocuments = "fail" <;>
            simp [h1, h2, Except.map] at hprep <;> exact hprep
      have htr0 : migratedNames tr = [] := by
        rw [htr]
        simp only [writeDocuments, Option.isSome_none, Bool.false_eq_true, if_false,
          if_neg (not_not_intro hdup), if_pos hemp]
        exact migratedNames_createSchema cfg b (some (resolveIndex cfg index))
      subst hdocs
      simp [htr0]
    · have hwd : writeDocuments cfg co b documents index batchSize dupArg Option.none =
          ((processBatchesGo cfg co (resolveIndex cfg index)
              (chunksOfGo batchSize [] docs) cur
              (createSchemaAndIndexIfNotExist cfg b (some (resolveIndex cfg index))).1).1,
           (processBatchesGo cfg co (resolveIndex cfg index)
              (chunksOfGo batchSize [] docs) cur
              (createSchemaAndIndexIfNotExist cfg b (some (resolveIndex cfg index))).1).2.1,
           (createSchemaAndIndexIfNotExist cfg b (some (resolveIndex cfg index))).2 ++
             [.schemaGet] ++
             (processBatchesGo cfg co (resolveIndex cfg index)
                (chunksOfGo batchSize [] docs) cur
                (createSchemaAndIndexIfNotExist cfg b (some (resolveIndex cfg index))).1).2.2) := by
        simp only [writeDocuments, Option.isSome_none, Bool.false_eq_true, if_false,
          if_neg (not_not_intro hdup), if_neg hemp, hprep, hcur]
      rw [hwd] at hok htr
      rcases hpb : processBatchesGo cfg co (resolveIndex cfg index)
          (chunksOfGo batchSize [] docs) cur
          (createSchemaAndIndexIfNotExist cfg b (some (resolveIndex cfg index))).1 with
        ⟨r, b2, tr2⟩
      rw [hpb] at hok htr
      dsimp only at hok htr
      rcases r with e | u
      · cases hok
      · obtain ⟨⟩ := u
        obtain ⟨c1, c2, c3, c4⟩ := processBatchesGo_ok cfg co (resolveIndex cfg index)
          (chunksOfGo batchSize [] docs) cur
          (createSchemaAndIndexIfNotExist cfg b (some (resolveIndex cfg index))).1 b2 tr2 hpb
        have hflat : (chunksOfGo batchSize [] docs).flatten = docs := by
          rw [chunksOfGo_flatten]
          rfl
        rw [hflat] at c3 c4
        have htrn : migratedNames tr = migratedNames tr2 := by
          rw [htr, migratedNames_append, migratedNames_append,
            migratedNames_createSchema]
          simp [migratedNames]
        rw [htrn]
        refine ⟨c1, c2, c3, ?_⟩
        intro d hd k hk
        exact List.mem_append.mp (c4 d hd k hk)
  · exfalso
    have : (writeDocuments cfg co b documents index batchSize dupArg Option.none).1 =
        .error .assertionError := by
      simp only [writeDocuments, Option.isSome_none, Bool.false_eq_true, if_false,
        if_pos hdup]
    rw [this] at hok
    cases hok

/-- The scenario documents after id sanitization (the prepared list of the
write pipeline). -/
def scenarioPrepared : List WDoc :=
  [{ id := "4847abb9-44fc-b88c-a6d9-b4b0c972a7fa", content := .str "text_1",
     embedding := .list [.float 1] },
   { id := "ffe66bff-9675-d98c-e872-6768a096179c", content := .str "text_2",
     embedding := .list [.float 1] },
   { id := "6fe0a902-2a26-ff68-f7b3-cc3e91ac1326", content := .str "text_3",
     embedding := .list [.float 1] }]

set_option maxRecDepth 100000 in
/-- C4 witness: the exactly-once migration property evaluated on the
concrete three-document scenario write. -/
theorem writeDocuments_migrates_each_missing_once_witness :
    (migratedNames (writeDocuments {} collabStub {} scenarioDocs Option.none 10000 Option.none
        Option.none).2.2).Nodup ∧
    (∀ p ∈ migratedNames (writeDocuments {} collabStub {} scenarioDocs Option.none 10000
        Option.none Option.none).2.2,
      p ∉ getCurrentProperties {}
        (createSchemaAndIndexIfNotExist {} {} (some (resolveIndex {} Option.none))).1
        (some (resolveIndex {} Option.none))) ∧
    (∀ p ∈ migratedNames (writeDocuments {} collabStub {} scenarioDocs Option.none 10000
        Option.none Option.none).2.2,
      ∃ d ∈ scenarioPrepared, p ∈ flatKeys {} collabStub d) ∧
    (∀ d ∈ scenarioPrepared, ∀ k ∈ flatKeys {} collabStub d,
      k ∈ getCurrentProperties {}
        (createSchemaAndIndexIfNotExist {} {} (some (resolveIndex {} Option.none))).1
        (some (resolveIndex {} Option.none)) ∨
      k ∈ migratedNames (writeDocuments {} collabStub {} scenarioDocs Option.none 10000
        Option.none Option.none).2.2) :=
  writeDocuments_migrates_each_missing_once {} collabStub {} scenarioDocs Option.none 10000
    Option.none scenarioPrepared (by rfl) (by rfl) _ _ rfl rfl

/-- Updating one key leaves other lookups unchanged. -/
theorem alookup_aset_ne (kvs : List (String × PyVal)) (k k' : String) (v : PyVal)
    (h : k' ≠ k) : alookup (aset kvs k v) k' = alookup kvs k' := by
  unfold aset
  by_cases hf : (kvs.find? (fun kv => kv.1 == k)).isSome
  · rw [if_pos hf]
    clear hf
    induction kvs with
    | nil => rfl
    | cons kv rest ih =>
      simp only [List.map_cons]
      by_cases hk : kv.1 = k
      · rw [if_pos (by simpa using hk), alookup_cons, alookup_cons,
          if_neg (fun e => h e.symm), if_neg (by rw [hk]; exact fun e => h e.symm)]
        exact ih
      · rw [if_neg (by simpa using hk), alookup_cons, alookup_cons]
        by_cases hk' : kv.1 = k'
        · simp [hk']
        · rw [if_neg hk', if_neg hk']
          simpa using ih
  · rw [if_neg hf]
    clear hf
    induction kvs with
    | nil => simp [alookup_cons, alookup, Ne.symm h]
    | cons kv rest ih =>
      rw [List.cons_append, alookup_cons, alookup_cons]
      by_cases hk' : kv.1 = k' <;> simp [hk', ih]

/-- C10 helper: when the document carries every date-typed property, the
missing-key branch of the coercion loop is unreachable. -/
theorem coerceDates_no_keyError (toRFC : PyVal → Option PyVal) :
    ∀ (dateFields : List String) (doc : List (String × PyVal)),
      (∀ p ∈ dateFields, p ∈ akeys doc) →
      ∀ k, coerceDates toRFC dateFields doc ≠ .error (.keyError k)
  | [], _, _, k => by simp [coerceDates]
  | f :: fs, doc, hall, k => by
    simp only [coerceDates]
    rcases hl : alookup doc f with _ | v
    · exact absurd (hall f (List.mem_cons_self f fs)) ((alookup_eq_none_iff doc f).mp hl)
    · dsimp only
      rcases hr : toRFC v with _ | v'
      · simp
      · dsimp only
        exact coerceDates_no_keyError toRFC fs (aset doc f v')
          (fun p hp => akeys_subset_aset doc f v' (hall p (List.mem_cons_of_mem f hp))) k

/-- C10 helper: when some date-typed property is missing from the document
(and the present ones are parseable), the coercion loop aborts with a
missing-key error for a missing key. -/
theorem coerceDates_keyError_missing (toRFC : PyVal → Option PyVal) :
    ∀ (dateFields : List String) (doc : List (String × PyVal)),
      dateFields.Nodup →
      (∀ p v, p ∈ dateFields → alookup doc p = some v → (toRFC v).isSome) →
      (∃ p ∈ dateFields, p ∉ akeys doc) →
      ∃ k, k ∉ akeys doc ∧ coerceDates toRFC dateFields doc = .error (.keyError k)
  | [], doc, _, _, hmiss => absurd hmiss (by simp)
  | f :: fs, doc, hnd, hparse, hmiss => by
    rcases hl : alookup doc f with _ | v
    · exact ⟨f, (alookup_eq_none_iff doc f).mp hl, by simp [coerceDates, hl]⟩
    · have hf : f ∈ akeys doc := (alookup_isSome_iff doc f).mp (by rw [hl]; rfl)
      obtain ⟨p, hp, hpnot⟩ := hmiss
      have hpfs : p ∈ fs := by
        rcases List.mem_cons.mp hp with he | he
        · exact absurd hf (he ▸ hpnot)
        · exact he
      have hfnotfs : f ∉ fs := (List.nodup_cons.mp hnd).1
      have hsome := hparse f v (List.mem_cons_self f fs) hl
      rcases hr : toRFC v with _ | v'
      · rw [hr] at hsome
        cases hsome
      · have hkeq : akeys (aset doc f v') = akeys doc := akeys_aset_of_mem doc f v' hf
        obtain ⟨k, hknot, heq⟩ := coerceDates_keyError_missing toRFC fs (aset doc f v')
          (List.nodup_cons.mp hnd).2
          (fun q w hq hw => hparse q w (List.mem_cons_of_mem f hq)
            (by rwa [alookup_aset_ne doc f q v' (fun e => hfnotfs (e ▸ hq))] at hw))
          ⟨p, hpfs, fun hmem => hpnot (hkeq ▸ hmem)⟩
        exact ⟨k, fun hmem => hknot (by rw [hkeq]; exact hmem),
          by simp [coerceDates, hl, hr, heq]⟩

/-- The two-document C10 input: the first document introduces the
date-typed property `release`, the second lacks it. -/
def c10docs : List WDoc :=
  [{ id := "doc-1", content := .str "text_1", meta := [("release", .str "2021-01-01")],
     embedding := .list [.float 1] },
   { id := "doc-2", content := .str "text_2", embedding := .list [.float 1] }]

set_option maxRecDepth 100000 in
/-- C10: the date-coercion step of the write pipeline looks up every
date-typed schema property in every document unconditionally — with every
date property present the missing-key branch is unreachable; with one
missing (and present values parseable) the loop aborts with a missing-key
error; and the concrete two-document call, whose first document migrates a
date property the second lacks, aborts with `KeyError "release"` even
though the second document is otherwise valid. -/
theorem writeDocuments_date_coercion_missing_key :
    (∀ (toRFC : PyVal → Option PyVal) (dateFields : List String)
       (doc : List (String × PyVal)),
       (∀ p ∈ dateFields, p ∈ akeys doc) →
       ∀ k, coerceDates toRFC dateFields doc ≠ .error (.keyError k)) ∧
    (∀ (toRFC : PyVal → Option PyVal) (dateFields : List String)
       (doc : List (String × PyVal)),
       dateFields.Nodup →
       (∀ p v, p ∈ dateFields → alookup doc p = some v → (toRFC v).isSome) →
       (∃ p ∈ dateFields, p ∉ akeys doc) →
       ∃ k, k ∉ akeys doc ∧ coerceDates toRFC dateFields doc = .error (.keyError k)) ∧
    (writeDocuments {} collabStub {} c10docs Option.none 10000 Option.none Option.none).1 =
      .error (.keyError "release") :=
  ⟨coerceDates_no_keyError, coerceDates_keyError_missing, by rfl⟩

/-- C10 witness: the two general parts at concrete inputs. -/
theorem writeDocuments_date_coercion_missing_key_witness :
    coerceDates collabStub.toRFC3339 ["release"] [("release", .str "2021-01-01")] ≠
      .error (.keyError "release") ∧
    (∃ k, k ∉ akeys [("other", PyVal.str "v")] ∧
      coerceDates collabStub.toRFC3339 ["release"] [("other", PyVal.str "v")] =
        .error (.keyError k)) :=
  ⟨writeDocuments_date_coercion_missing_key.1 collabStub.toRFC3339 ["release"]
      [("release", .str "2021-01-01")] (by decide) "release",
   writeDocuments_date_coercion_missing_key.2.1 collabStub.toRFC3339 ["release"]
      [("other", PyVal.str "v")] (by decide)
      (fun p v hp hw => by
        rcases List.mem_singleton.mp hp with rfl
        rw [show alookup [("other", PyVal.str "v")] "release" = Option.none from rfl] at hw
        cases hw)
      ⟨"release", by decide, by decide⟩⟩

/-! ## C9: index-name canonicalization -/

/-- `Char.ofNat` on a valid (basic-plane) code point round-trips. -/
theorem toNat_ofNat_valid (n : Nat) (h : n < 55296) : (Char.ofNat n).toNat = n := by
  have hv : n.isValidChar := Or.inl h
  simp [Char.ofNat, hv, Char.ofNatAux, Char.toNat, UInt32.toNat, BitVec.toNat_ofNatLt]

/-- Unfolding of `Char.toUpper`. -/
theorem toUpper_eq (c : Char) :
    c.toUpper = if c.toNat ≥ 97 ∧ c.toNat ≤ 122 then Char.ofNat (c.toNat - 32) else c := rfl

/-- Unfolding of `Char.toLower`. -/
theorem toLower_eq (c : Char) :
    c.toLower = if c.toNat ≥ 65 ∧ c.toNat ≤ 90 then Char.ofNat (c.toNat + 32) else c := rfl

/-- Upper-casing is idempotent. -/
theorem toUpper_idem (c : Char) : c.toUpper.toUpper = c.toUpper := by
  by_cases h : c.toNat ≥ 97 ∧ c.toNat ≤ 122
  · have h1 : c.toUpper = Char.ofNat (c.toNat - 32) := by rw [toUpper_eq, if_pos h]
    have ht : (Char.ofNat (c.toNat - 32)).toNat = c.toNat - 32 :=
      toNat_ofNat_valid _ (by omega)
    rw [h1, toUpper_eq, if_neg (by rw [ht]; omega)]
  · have h1 : c.toUpper = c := by rw [toUpper_eq, if_neg h]
    rw [h1, h1]

/-- Upper-casing never produces an underscore from a non-underscore. -/
theorem toUpper_ne_underscore (c : Char) (h : c ≠ '_') : c.toUpper ≠ '_' := by
  by_cases hb : c.toNat ≥ 97 ∧ c.toNat ≤ 122
  · rw [toUpper_eq, if_pos hb]
    intro heq
    have := congrArg Char.toNat heq
    rw [toNat_ofNat_valid _ (by omega)] at this
    have h95 : ('_').toNat = 95 := rfl
    omega
  · rw [toUpper_eq, if_neg hb]
    exact h

/-- Lower-casing never produces an underscore from a non-underscore. -/
theorem toLower_ne_underscore (c : Char) (h : c ≠ '_') : c.toLower ≠ '_' := by
  by_cases hb : c.toNat ≥ 65 ∧ c.toNat ≤ 90
  · rw [toLower_eq, if_pos hb]
    intro heq
    have := congrArg Char.toNat heq
    rw [toNat_ofNat_valid _ (by omega)] at this
    have h95 : ('_').toNat = 95 := rfl
    omega
  · rw [toLower_eq, if_neg hb]
    exact h

/-- Pieces returned by the character splitter never contain the
separator. -/
theorem splitOnChar_not_mem (sep : Char) :
    ∀ (cs : List Char) (p : List Char), p ∈ splitOnChar sep cs → sep ∉ p
  | [], p, hp => by
    simp only [splitOnChar, List.mem_singleton] at hp
    subst hp
    simp
  | c :: cs, p, hp => by
    simp only [splitOnChar] at hp
    by_cases h : c = sep
    · rw [if_pos h] at hp
      rcases List.mem_cons.mp hp with he | he
      · subst he
        simp
      · exact splitOnChar_not_mem sep cs p he
    · rw [if_neg h] at hp
      rcases hsp : splitOnChar sep cs with _ | ⟨q, qs⟩
      · rw [hsp] at hp
        rcases List.mem_singleton.mp hp with rfl
        intro hmem
        rcases List.mem_singleton.mp hmem with rfl
        exact h rfl
      · rw [hsp] at hp
        rcases List.mem_cons.mp hp with he | he
        · subst he
          intro hmem
          rcases List.mem_cons.mp hmem with he2 | he2
          · exact h he2.symm
          · exact splitOnChar_not_mem sep cs q (hsp ▸ List.mem_cons_self q qs) he2
        · exact splitOnChar_not_mem sep cs p (hsp ▸ List.mem_cons_of_mem q he)

/-- Every character of a capitalized-pieces concatenation is an upper- or
lower-cased piece character. -/
theorem mem_flatten_capitalize :
    ∀ (ps : List (List Char)) (c : Char), c ∈ (ps.map pyCapitalize).flatten →
      ∃ d p, p ∈ ps ∧ d ∈ p ∧ (c = d.toUpper ∨ c = d.toLower)
  | [], c, h => by simp at h
  | p :: ps, c, h => by
    simp only [List.map_cons, List.flatten_cons] at h
    rcases List.mem_append.mp h with hm | hm
    · rcases p with _ | ⟨d, ds⟩
      · simp [pyCapitalize] at hm
      · simp only [pyCapitalize, List.mem_cons] at hm
        rcases hm with he | he
        · exact ⟨d, d :: ds, List.mem_cons_self _ _, List.mem_cons_self _ _, Or.inl he⟩
        · obtain ⟨e, hemem, heq⟩ := List.mem_map.mp he
          exact ⟨e, d :: ds, List.mem_cons_self _ _, List.mem_cons_of_mem _ hemem,
            Or.inr heq.symm⟩
    · obtain ⟨d, q, hq, hd, hcase⟩ := mem_flatten_capitalize ps c hm
      exact ⟨d, q, List.mem_cons_of_mem _ hq, hd, hcase⟩

/-- The first character of a capitalized-pieces concatenation is
upper-cased. -/
theorem flatten_capitalize_head :
    ∀ (ps : List (List Char)) (c : Char) (cs : List Char),
      (ps.map pyCapitalize).flatten = c :: cs → ∃ d : Char, c = d.toUpper
  | [], c, cs, h => by simp at h
  | p :: ps, c, cs, h => by
    simp only [List.map_cons, List.flatten_cons] at h
    rcases p with _ | ⟨d, ds⟩
    · simp only [pyCapitalize, List.nil_append] at h
      exact flatten_capitalize_head ps c cs h
    · simp only [pyCapitalize, List.cons_append, List.cons.injEq] at h
      obtain ⟨h1, _⟩ := h
      exact ⟨d, h1.symm⟩

/-- `List.contains` on characters decides membership. -/
theorem char_contains_iff (l : List Char) (a : Char) : l.contains a = true ↔ a ∈ l := by
  simp [List.contains_iff_exists_mem_beq]

/-- A non-empty string has a non-empty character list. -/
theorem string_data_ne_nil (s : String) (hs : s ≠ "") : s.data ≠ [] := by
  intro h2
  apply hs
  cases s with
  | mk data =>
    cases h2
    rfl

/-- A non-empty output of `_sanitize_index_name` is one of its fixed
points: sanitized names contain no underscore and start with an
upper-cased character. -/
theorem sanitizeIndexName_fixpoint (t s : String)
    (h : sanitizeIndexName (some t) = some s) (hs : s ≠ "") :
    sanitizeIndexName (some s) = some s := by
  unfold sanitizeIndexName at h
  dsimp only at h
  by_cases hund : t.data.contains '_'
  · rw [if_pos hund] at h
    simp only [Option.some.injEq] at h
    have hsdata : s.data = ((splitOnChar '_' t.data).map pyCapitalize).flatten := by
      rw [← h]
    have hnous : '_' ∉ s.data := by
      rw [hsdata]
      intro hmem
      obtain ⟨d, p, hp, hd, hcase⟩ := mem_flatten_capitalize _ _ hmem
      have hdne : d ≠ '_' := fun he => splitOnChar_not_mem '_' t.data p hp (he ▸ hd)
      rcases hcase with he | he
      · exact toUpper_ne_underscore d hdne he.symm
      · exact toLower_ne_underscore d hdne he.symm
    rcases hd : s.data with _ | ⟨c, cs⟩
    · exact absurd hd (string_data_ne_nil s hs)
    · have hcup : ∃ d : Char, c = d.toUpper :=
        flatten_capitalize_head _ c cs (by rw [← hsdata, hd])
      obtain ⟨d, hdup⟩ := hcup
      have hcupeq : c.toUpper = c := by
        rw [hdup]
        exact toUpper_idem d
      unfold sanitizeIndexName
      dsimp only
      rw [if_neg (fun hc => hnous (char_contains_iff _ _ |>.mp hc)), hd]
      dsimp only
      rw [hcupeq, ← hd]
  · rw [if_neg hund] at h
    rcases ht : t.data with _ | ⟨c, cs⟩
    · rw [ht] at h
      simp only [Option.some.injEq] at h
      exact absurd h.symm hs
    · rw [ht] at h
      simp only [Option.some.injEq] at h
      have hnot_t : '_' ∉ t.data := fun hm => hund (char_contains_iff _ _ |>.mpr hm)
      have hcne : c ≠ '_' := fun he => hnot_t (by rw [ht]; exact he ▸ List.mem_cons_self c cs)
      have hs_data : s.data = c.toUpper :: cs := by rw [← h]
      have hnous : '_' ∉ s.data := by
        rw [hs_data]
        intro hm
        rcases List.mem_cons.mp hm with he | he
        · exact toUpper_ne_underscore c hcne he.symm
        · exact hnot_t (by rw [ht]; exact List.mem_cons_of_mem c he)
      unfold sanitizeIndexName
      dsimp only
      rw [if_neg (fun hc => hnous (char_contains_iff _ _ |>.mp hc)), hs_data]
      dsimp only
      rw [toUpper_idem c, ← hs_data]

/-- Re-resolving an already-resolved index name is the identity (the
store's configured index is itself sanitized at construction, the
hypothesis `hcfg`). -/
theorem resolveIndex_idem (cfg : Config)
    (hcfg : resolveIndex cfg (some cfg.index) = cfg.index) (index : Option String) :
    resolveIndex cfg (some (resolveIndex cfg index)) = resolveIndex cfg index := by
  rcases index with _ | t
  · have h1 : resolveIndex cfg Option.none = cfg.index := rfl
    rw [h1]
    exact hcfg
  · obtain ⟨s, h⟩ : ∃ s, sanitizeIndexName (some t) = some s := by
      unfold sanitizeIndexName
      dsimp only
      by_cases hc : t.data.contains '_'
      · rw [if_pos hc]
        exact ⟨_, rfl⟩
      · rw [if_neg hc]
        rcases t.data with _ | ⟨c, cs⟩
        · exact ⟨_, rfl⟩
        · exact ⟨_, rfl⟩
    · by_cases hse : s = ""
      · have h1 : resolveIndex cfg (some t) = cfg.index := by
          unfold resolveIndex
          rw [h]
          dsimp only
          rw [if_pos hse]
        rw [h1]
        exact hcfg
      · have h1 : resolveIndex cfg (some t) = s := by
          unfold resolveIndex
          rw [h]
          dsimp only
          rw [if_neg hse]
        rw [h1]
        unfold resolveIndex
        rw [sanitizeIndexName_fixpoint t s h hse]
        dsimp only
        rw [if_neg hse]

/-- Class names carried by one backend call. -/
def callClassNames : BCall → List String
  | .schemaCreate ns => ns
  | .propertyCreate n _ => [n]
  | .deleteClass n => [n]
  | .dataUpdate n _ => [n]
  | .aggregate n _ => [n]
  | .queryGet n _ _ => [n]
  | .batchCreate es => es.map (fun e => e.className)
  | _ => []

/-- All class names sent to the backend in a call trace. -/
def traceClassNames (tr : List BCall) : List String := tr.flatMap callClassNames

/-- `traceClassNames` distributes over concatenation. -/
theorem traceClassNames_append (a b : List BCall) :
    traceClassNames (a ++ b) = traceClassNames a ++ traceClassNames b :=
  List.flatMap_append a b _

/-- Without a custom schema, ensuring the index only ever sends the
resolved class name. -/
theorem traceClassNames_createSchema (cfg : Config) (b : Backend) (index : Option String)
    (hcustom : cfg.customSchema = Option.none) :
    traceClassNames (createSchemaAndIndexIfNotExist cfg b index).2 ⊆
      [resolveIndex cfg index] := by
  unfold createSchemaAndIndexIfNotExist
  dsimp only
  rw [hcustom]
  dsimp only
  split
  · intro x hx
    simp [traceClassNames, callClassNames] at hx
  · intro x hx
    simp [traceClassNames, callClassNames] at hx
    simp [hx]

/-- Migrations only ever send the resolved class name. -/
theorem traceClassNames_migrateProps (cfg : Config) (dateOk : String → Bool) (idx : String)
    (fdoc : List (String × PyVal)) :
    ∀ (ps cur : List String) (b : Backend),
      traceClassNames (migrateProps cfg dateOk idx fdoc ps cur b).2.2 ⊆
        [resolveIndex cfg (some idx)]
  | [], cur, b => by
    intro x hx
    simp [migrateProps, traceClassNames] at hx
  | p :: ps, cur, b => by
    intro x hx
    simp only [migrateProps] at hx
    rcases hup : updateSchema cfg dateOk b p ((alookup fdoc p).getD .none) (some idx) with
      e | bc
    · rw [hup] at hx
      simp [traceClassNames] at hx
    · obtain ⟨b', call⟩ := bc
      rw [hup] at hx
      dsimp only at hx
      have hcall : call = BCall.propertyCreate (resolveIndex cfg (some idx))
          ⟨p, [(getWeaviateTypeOfValue dateOk ((alookup fdoc p).getD .none)).getD ""]⟩ := by
        unfold updateSchema at hup
        rcases hty : getWeaviateTypeOfValue dateOk ((alookup fdoc p).getD .none) with _ | dt
        · rw [hty] at hup
          cases hup
        · rw [hty] at hup
          simp only [Except.ok.injEq, Prod.mk.injEq] at hup
          rw [← hup.2]
          rfl
      simp only [traceClassNames, List.flatMap_cons] at hx
      rcases List.mem_append.mp hx with hm | hm
      · rw [hcall] at hm
        simp [callClassNames] at hm
        simp [hm]
      · exact traceClassNames_migrateProps cfg dateOk idx fdoc ps (cur ++ [p]) b' hm

/-- Processing one document only ever sends the resolved class name. -/
theorem traceClassNames_processDoc (cfg : Config) (co : Collab) (idx : String)
    (cur : List String) (b : Backend) (d : WDoc) :
    traceClassNames (processDoc cfg co idx cur b d).2.2 ⊆ [resolveIndex cfg (some idx)] := by
  unfold processDoc
  rcases hf : flatDoc cfg co.jsonDumps d with e | x
  · intro x hx
    simp [traceClassNames] at hx
  · obtain ⟨fdoc, docId, vec⟩ := x
    dsimp only
    rcases hm : migrateProps cfg (dateOkOf co) idx fdoc (checkDocument cur fdoc) cur b with
      ⟨r, bm, trm⟩
    have hsub : traceClassNames trm ⊆ [resolveIndex cfg (some idx)] := by
      have h2 := traceClassNames_migrateProps cfg (dateOkOf co) idx fdoc
        (checkDocument cur fdoc) cur b
      rw [hm] at h2
      exact h2
    rcases r with e | cur'
    · dsimp only
      exact hsub
    · dsimp only
      rcases hc : coerceDates co.toRFC3339 (getDateProperties cfg bm (some idx)) fdoc with
        e | fdoc'
      · dsimp only
        intro x hx
        rw [traceClassNames_append] at hx
        rcases List.mem_append.mp hx with hmm | hmm
        · exact hsub hmm
        · simp [traceClassNames, callClassNames] at hmm
      · dsimp only
        intro x hx
        rw [traceClassNames_append] at hx
        rcases List.mem_append.mp hx with hmm | hmm
        · exact hsub hmm
        · simp [traceClassNames, callClassNames] at hmm

/-- The per-batch loop only sends the resolved class name, and every batch
entry carries the operation's class name. -/
theorem traceClassNames_processDocsGo (cfg : Config) (co : Collab) (idx : String) :
    ∀ (ds : List WDoc) (cur : List String) (b : Backend),
      traceClassNames (processDocsGo cfg co idx ds cur b).2.2 ⊆
        [resolveIndex cfg (some idx)] ∧
      (∀ cur2 entries b2 tr, processDocsGo cfg co idx ds cur b = (.ok (cur2, entries), b2, tr) →
        ∀ e ∈ entries, e.className = idx)
  | [], cur, b => by
    constructor
    · intro x hx
      simp [processDocsGo, traceClassNames] at hx
    · intro cur2 entries b2 tr h
      simp only [processDocsGo, Prod.mk.injEq, Except.ok.injEq] at h
      obtain ⟨⟨_, h2⟩, _, _⟩ := h
      subst h2
      simp
  | d :: ds, cur, b => by
    have hpd := traceClassNames_processDoc cfg co idx cur b d
    constructor
    · intro x hx
      simp only [processDocsGo] at hx
      rcases hp : processDoc cfg co idx cur b d with ⟨r1, b1, tr1⟩
      rw [hp] at hx
      rw [hp] at hpd
      rcases r1 with e | x1
      · dsimp only at hx
        exact hpd hx
      · obtain ⟨cur1, entry⟩ := x1
        dsimp only at hx
        rcases hrec : processDocsGo cfg co idx ds cur1 b1 with ⟨r2, brec, tr2⟩
        rw [hrec] at hx
        have hrecsub := (traceClassNames_processDocsGo cfg co idx ds cur1 b1).1
        rw [hrec] at hrecsub
        rcases r2 with e | x2 <;> dsimp only at hx <;> rw [traceClassNames_append] at hx <;>
          rcases List.mem_append.mp hx with hmm | hmm
        · exact hpd hmm
        · exact hrecsub hmm
        · exact hpd hmm
        · exact hrecsub hmm
    · intro cur2 entries b2 tr h
      simp only [processDocsGo] at h
      rcases hp : processDoc cfg co idx cur b d with ⟨r1, b1, tr1⟩
      rw [hp] at h
      rcases r1 with e | x1
      · dsimp only at h
        cases h
      · obtain ⟨cur1, entry⟩ := x1
        dsimp only at h
        rcases hrec : processDocsGo cfg co idx ds cur1 b1 with ⟨r2, brec, tr2⟩
        rw [hrec] at h
        rcases r2 with e | x2
        · dsimp only at h
          cases h
        · obtain ⟨currec, entriesrec⟩ := x2
          dsimp only at h
          simp only [Prod.mk.injEq, Except.ok.injEq] at h
          obtain ⟨⟨_, hent⟩, _, _⟩ := h
          subst hent
          intro e he
          rcases List.mem_cons.mp he with he1 | he1
          · have hentry : entry.className = idx := by
              unfold processDoc at hp
              rcases hf : flatDoc cfg co.jsonDumps d with err | xx
              · rw [hf] at hp
                cases hp
              · obtain ⟨fdoc, docId, vec⟩ := xx
                rw [hf] at hp
                dsimp only at hp
                rcases hmp : migrateProps cfg (dateOkOf co) idx fdoc
                    (checkDocument cur fdoc) cur b with ⟨rr, bm, trm⟩
                rw [hmp] at hp
                rcases rr with ee | curx
                · dsimp only at hp
                  cases hp
                · dsimp only at hp
                  rcases hcd : coerceDates co.toRFC3339
                      (getDateProperties cfg bm (some idx)) fdoc with ee | fdoc'
                  · rw [hcd] at hp
                    dsimp only at hp
                    cases hp
                  · rw [hcd] at hp
                    dsimp only at hp
                    simp only [Prod.mk.injEq, Except.ok.injEq] at hp
                    obtain ⟨⟨_, hpe⟩, _, _⟩ := hp
                    rw [← hpe]
            exact he1 ▸ hentry
          · exact (traceClassNames_processDocsGo cfg co idx ds cur1 b1).2 currec entriesrec
              brec tr2 hrec e he1

/-- The batch loop only ever sends the resolved class name or the
operation's class name. -/
theorem traceClassNames_processBatchesGo (cfg : Config) (co : Collab) (idx : String) :
    ∀ (bs : List (List WDoc)) (cur : List String) (b : Backend),
      traceClassNames (processBatchesGo cfg co idx bs cur b).2.2 ⊆
        [resolveIndex cfg (some idx), idx]
  | [], cur, b => by
    intro x hx
    simp [processBatchesGo, traceClassNames] at hx
  | batch :: rest, cur, b => by
    intro x hx
    simp only [processBatchesGo] at hx
    rcases hp : processDocsGo cfg co idx batch cur b with ⟨r1, b1, tr1⟩
    rw [hp] at hx
    have hsub1 := (traceClassNames_processDocsGo cfg co idx batch cur b).1
    rw [hp] at hsub1
    rcases r1 with e | x1
    · dsimp only at hx
      have h1 := hsub1 hx
      simp only [List.mem_singleton] at h1
      simp [h1]
    · obtain ⟨cur1, entries⟩ := x1
      dsimp only at hx
      rcases hrec : processBatchesGo cfg co idx rest cur1 (bBatchCreate b1 entries) with
        ⟨r2, brec, tr2⟩
      rw [hrec] at hx
      dsimp only at hx
      rw [traceClassNames_append, traceClassNames_append] at hx
      have hents := (traceClassNames_processDocsGo cfg co idx batch cur b).2 cur1 entries
        b1 tr1 hp
      have hrecsub := traceClassNames_processBatchesGo cfg co idx rest cur1
        (bBatchCreate b1 entries)
      rw [hrec] at hrecsub
      rcases List.mem_append.mp hx with hm | hm
      · rcases List.mem_append.mp hm with hm2 | hm2
        · have h1 := hsub1 hm2
          simp only [List.mem_singleton] at h1
          simp [h1]
        · simp only [traceClassNames, callClassNames, List.flatMap_cons, List.flatMap_nil,
            List.append_nil, List.mem_map] at hm2
          obtain ⟨e, hemem, heq⟩ := hm2
          rw [← heq, hents e hemem]
          simp
      · exact hrecsub hm

/-- Sequential id fetches carry no class names. -/
theorem traceClassNames_getDocumentsByIdGo (cfg : Config) (co : Collab) (b : Backend)
    (idx : String) :
    ∀ l, traceClassNames (getDocumentsByIdGo cfg co b idx l).2 = []
  | [] => rfl
  | i :: is => by
    have ih := traceClassNames_getDocumentsByIdGo cfg co b idx is
    simp only [getDocumentsByIdGo]
    rcases hrec : getDocumentsByIdGo cfg co b idx is with ⟨ds, tr⟩
    rw [hrec] at ih
    rcases bGetById b (sanitizeId cfg i (some idx)) with _ | o <;>
      simpa [traceClassNames, callClassNames] using ih

/-- Per-object deletions carry no class names. -/
theorem traceClassNames_dataDeletes (l : List HDoc) :
    traceClassNames (l.map (fun d => BCall.dataDelete d.id)) = [] := by
  induction l with
  | nil => rfl
  | cons d ds ih => simp [traceClassNames, callClassNames, ih]

/-- Reading a whole index only sends the canonical class name. -/
theorem traceClassNames_getAllDocuments {F : Type} (cfg : Config) (co : Collab)
    (evalF : F → BObject → Bool) (b : Backend) (index : Option String) (filters : Option F)
    (re : Option Bool) (hcfg : resolveIndex cfg (some cfg.index) = cfg.index) :
    traceClassNames (getAllDocuments cfg co evalF b index filters re Option.none).2.2 ⊆
      [resolveIndex cfg index] := by
  intro x hx
  simp [getAllDocuments, getAllDocumentsInIndex, traceClassNames, callClassNames] at hx
  rw [hx, resolveIndex_idem cfg hcfg index]
  simp

/-- `update_document_meta` sends the caller's raw (unsanitized) index name
with the final data update whenever the call succeeds. -/
theorem updateDocumentMeta_sends_raw_index (cfg : Config) (co : Collab) (b : Backend)
    (id : String) (meta : List (String × PyVal)) (s : String) (hs : s ≠ "")
    (hok : (updateDocumentMeta cfg co b id meta (some s)).1 = .ok ()) :
    BCall.dataUpdate s id ∈ (updateDocumentMeta cfg co b id meta (some s)).2.2 := by
  simp only [updateDocumentMeta, if_neg hs] at hok ⊢
  rcases hm : migrateProps cfg (dateOkOf co) s meta
      (checkDocument (getCurrentProperties cfg b (some s)) meta)
      (getCurrentProperties cfg b (some s)) b with ⟨r, b', tr⟩
  rw [hm] at hok
  rcases r with e | u
  · dsimp only at hok
    cases hok
  · dsimp only at hok ⊢
    rcases hc : coerceMetaDates co.toRFC3339 (getDateProperties cfg b' (some s)) meta with
      e | meta'
    · rw [hc] at hok
      dsimp only at hok
      cases hok
    · dsimp only
      simp

/-- C9 counterexample: `update_document_meta` does not canonicalize its
index argument.  "document_index" and "DocumentIndex" both resolve to the
canonical class name "DocumentIndex", yet the successful call with the
caller index "document_index" sends the raw class name "document_index"
with its final data update. -/
theorem updateDocumentMeta_raw_index_counterexample :
    resolveIndex {} (some "document_index") = "DocumentIndex" ∧
    resolveIndex {} (some "DocumentIndex") = "DocumentIndex" ∧
    (updateDocumentMeta {} collabStub ⟨[], []⟩ "some-id" [] (some "document_index")).2.2 =
      [.schemaGet, .schemaGet, .dataUpdate "document_index" "some-id"] ∧
    traceClassNames (updateDocumentMeta {} collabStub ⟨[], []⟩ "some-id" []
      (some "document_index")).2.2 = ["document_index"] :=
  ⟨by decide, by decide, by rfl, by rfl⟩

/-- C9 (corrected): the read, query, write and delete operations do
canonicalize their index argument — every class name in their backend
trace is the resolved index name — but `update_document_meta` does not:
it only defaults a falsy index and sends the caller's raw index name with
the final data update. -/
theorem canonical_index_usage {F : Type} (cfg : Config) (co : Collab)
    (evalF : F → BObject → Bool) (rawResults : String → List (List (String × PyVal)))
    (b : Backend) (id : String) (ids : List String) (docs : List WDoc)
    (meta : List (String × PyVal)) (filters : Option F) (re : Option Bool)
    (q cq : Option String) (topK batchSize : Nat) (dup : Option String)
    (oids : Option (List String)) (odwe : Bool) (index : Option String) (s : String)
    (hcfg : resolveIndex cfg (some cfg.index) = cfg.index)
    (hcustom : cfg.customSchema = Option.none) (hs : s ≠ "") :
    traceClassNames (getDocumentById cfg co b id index Option.none).2.2 ⊆
      [resolveIndex cfg index] ∧
    traceClassNames (getDocumentsById cfg co b ids index Option.none).2.2 ⊆
      [resolveIndex cfg index] ∧
    traceClassNames (getDocumentCount cfg evalF b filters index odwe Option.none).2.2 ⊆
      [resolveIndex cfg index] ∧
    traceClassNames (getAllDocuments cfg co evalF b index filters re Option.none).2.2 ⊆
      [resolveIndex cfg index] ∧
    traceClassNames (query cfg co evalF rawResults b q filters topK cq index).2.2 ⊆
      [resolveIndex cfg index] ∧
    traceClassNames (writeDocuments cfg co b docs index batchSize dup Option.none).2.2 ⊆
      [resolveIndex cfg index] ∧
    traceClassNames (deleteDocuments cfg co evalF b index oids filters Option.none).2.2 ⊆
      [resolveIndex cfg index] ∧
    ((updateDocumentMeta cfg co b id meta (some s)).1 = .ok () →
      BCall.dataUpdate s id ∈ (updateDocumentMeta cfg co b id meta (some s)).2.2) := by
  have idm := resolveIndex_idem cfg hcfg index
  have hsc : ∀ bb : Backend,
      traceClassNames (createSchemaAndIndexIfNotExist cfg bb
        (some (resolveIndex cfg index))).2 ⊆ [resolveIndex cfg index] := by
    intro bb y hy
    have h2 := traceClassNames_createSchema cfg bb (some (resolveIndex cfg index)) hcustom hy
    rwa [idm] at h2
  refine ⟨?_, ?_, ?_, ?_, ?_, ?_, ?_,
    fun hok => updateDocumentMeta_sends_raw_index cfg co b id meta s hs hok⟩
  · intro x hx
    rcases hb : bGetById b (sanitizeId cfg id (some (resolveIndex cfg index))) with _ | o <;>
      simp [getDocumentById, hb, traceClassNames, callClassNames] at hx
  · intro x hx
    rcases hg : getDocumentsByIdGo cfg co b (resolveIndex cfg index) ids with ⟨ds, tr⟩
    have h0 := traceClassNames_getDocumentsByIdGo cfg co b (resolveIndex cfg index) ids
    rw [hg] at h0
    simp [getDocumentsById, hg, h0] at hx
  · intro x hx
    cases odwe
    · rcases filters with _ | f <;>
        simp [getDocumentCount, traceClassNames, callClassNames] at hx <;> simp [hx]
    · simp [getDocumentCount, traceClassNames] at hx
  · exact traceClassNames_getAllDocuments cfg co evalF b index filters re hcfg
  · intro x hx
    by_cases hcq : (cq.getD "") = ""
    · rcases filters with _ | f
      · simp [query, hcq, traceClassNames, callClassNames] at hx
      · simp [query, hcq, traceClassNames, callClassNames] at hx
        simp [hx]
    · simp [query, hcq, traceClassNames, callClassNames] at hx
  · intro x hx
    dsimp only [writeDocuments] at hx
    split at hx
    · simp [traceClassNames] at hx
    · split at hx
      · try dsimp only at hx
        exact hsc b hx
      · split at hx
        · try dsimp only at hx
          exact hsc b hx
        · split at hx
          · try dsimp only at hx
            rw [traceClassNames_append] at hx
            rcases List.mem_append.mp hx with hm | hm
            · exact hsc b hm
            · simp [traceClassNames, callClassNames] at hm
          · try dsimp only at hx
            rw [traceClassNames_append, traceClassNames_append] at hx
            rcases List.mem_append.mp hx with hm | hm
            · rcases List.mem_append.mp hm with hm2 | hm2
              · exact hsc b hm2
              · simp [traceClassNames, callClassNames] at hm2
            · have hb2 := traceClassNames_processBatchesGo cfg co (resolveIndex cfg index)
                _ _ _ hm
              rw [idm] at hb2
              simpa using hb2
  · intro x hx
    dsimp only [deleteDocuments] at hx
    rcases hcs : createSchemaAndIndexIfNotExist cfg b (some (resolveIndex cfg index)) with
      ⟨b1, tr0⟩
    rw [hcs] at hx
    try dsimp only at hx
    have h0 := hsc b
    rw [hcs] at h0
    dsimp only at h0
    split at hx
    · simp [traceClassNames] at hx
    · split at hx
      · try dsimp only at hx
        rw [traceClassNames_append, traceClassNames_append] at hx
        rcases List.mem_append.mp hx with hm | hm
        · rcases List.mem_append.mp hm with hm2 | hm2
          · exact h0 hm2
          · simp [traceClassNames, callClassNames] at hm2
            simp [hm2]
        · exact hsc (bDeleteClass b1 (resolveIndex cfg index)) hm
      · rcases hgad : getAllDocuments cfg co evalF b1 (some (resolveIndex cfg index)) filters
          Option.none Option.none with ⟨r, b2, tr1⟩
        rw [hgad] at hx
        have hga := traceClassNames_getAllDocuments cfg co evalF b1
          (some (resolveIndex cfg index)) filters Option.none hcfg
        rw [hgad] at hga
        dsimp only at hga
        have hga2 : traceClassNames tr1 ⊆ [resolveIndex cfg index] := by
          intro y hy
          have h3 := hga hy
          rwa [idm] at h3
        rcases r with e | ds
        · try dsimp only at hx
          rw [traceClassNames_append] at hx
          rcases List.mem_append.mp hx with hm | hm
          · exact h0 hm
          · exact hga2 hm
        · try dsimp only at hx
          rw [traceClassNames_append, traceClassNames_append] at hx
          rcases List.mem_append.mp hx with hm | hm
          · rcases List.mem_append.mp hm with hm2 | hm2
            · exact h0 hm2
            · exact hga2 hm2
          · rw [traceClassNames_dataDeletes] at hm
            cases hm

set_option maxRecDepth 100000 in
/-- Closed instance of the canonical-index theorem: the default
configuration satisfies its hypotheses, and the concrete
`update_document_meta` call with index "document_index" sends the raw
class name with its data update. -/
theorem canonical_index_usage_witness :
    resolveIndex {} (some ({} : Config).index) = ({} : Config).index ∧
    ({} : Config).customSchema = (Option.none : Option (List BClass)) ∧
    "document_index" ≠ "" ∧
    BCall.dataUpdate "document_index" "some-id" ∈
      (updateDocumentMeta {} collabStub ⟨[], []⟩ "some-id" [] (some "document_index")).2.2 :=
  ⟨by decide, rfl, by decide,
    (@canonical_index_usage Unit {} collabStub evalUnit (fun _ => []) ⟨[], []⟩
      "some-id" [] [] [] Option.none Option.none Option.none Option.none 0 0 Option.none
      Option.none false Option.none "document_index" (by decide) rfl
      (by decide)).2.2.2.2.2.2.2 (by rfl)⟩

end HaystackWeaviate
